import Mathlib

/-!
Verification of the cryptographic core of the trust-stream repository
(`src/lib/crypto.ts` together with its AuthContext caller).

The TypeScript core is a thin, deterministic wrapper around the Web Crypto
API (`window.crypto.subtle`), `btoa`/`atob`, and IndexedDB.  We embed:

* the repository's own functions (`arrayBufferToBase64`, `base64ToArrayBuffer`,
  `generateRSAKeyPair`, `exportPublicKey`, `importPublicKey`,
  `exportPrivateKey`, `importPrivateKey`, `encryptMessage`, `decryptMessage`,
  `storePrivateKey`, `retrievePrivateKey`) directly from the source;
* the platform primitives they call:
  - `btoa`/`atob` concretely (RFC 4648 base64; `atob` follows the
    WHATWG forgiving-base64 algorithm, returning `none` where it throws);
  - `TextEncoder`/`TextDecoder` concretely (UTF-8);
  - the Web Crypto operations as an idealized symbolic cipher over concrete
    byte lists: a ciphertext is a rigid self-delimiting encoding (`sealBytes`)
    carrying the information of the key under which (and, for AES-GCM, the
    nonce with which) it was produced.  Decryption succeeds exactly when the
    ciphertext is a well-formed sealing under the matching key, which models
    the all-or-nothing authenticated behaviour of RSA-OAEP (padding check)
    and AES-GCM (authentication tag).  Key handles carry the algorithm,
    extractability and usage metadata that `crypto.subtle` enforces;
  - IndexedDB `put`/`get` on the `keys` object store (keyPath `userId`) as
    an association list with upsert semantics.

Bytes are `List Nat`; the `Uint8Array` well-formedness condition "every
entry fits in a byte" is the predicate `ValidBytes`.
-/

/-- Bytes of a `Uint8Array` / `ArrayBuffer`: a list of naturals. -/
abbrev Bytes := List Nat

/-- Every entry fits in one byte (the `Uint8Array` typing invariant). -/
def ValidBytes (bs : Bytes) : Prop := ∀ x ∈ bs, x < 256

instance : DecidablePred ValidBytes := fun bs =>
  inferInstanceAs (Decidable (∀ x ∈ bs, x < 256))

/-! ### Self-delimiting encodings used by the symbolic cipher -/

/-- Self-delimiting unary encoding of a natural number: `n` ones then a zero. -/
def encNat (n : Nat) : Bytes := List.replicate n 1 ++ [0]

/-- Inverse of `encNat`: read the leading ones, expect a zero, return the
remainder of the input. -/
def decodeNat : Bytes → Option (Nat × Bytes)
  | [] => none
  | 0 :: rest => some (0, rest)
  | 1 :: rest =>
    match decodeNat rest with
    | some (n, r) => some (n + 1, r)
    | none => none
  | _ => none

/-- Length-prefixed encoding of a byte list. -/
def encBytes (b : Bytes) : Bytes := encNat b.length ++ b

/-- Inverse of `encBytes`: read a length, split off that many bytes. -/
def decodeBytes (l : Bytes) : Option (Bytes × Bytes) :=
  match decodeNat l with
  | some (n, r) => if n ≤ r.length then some (r.take n, r.drop n) else none
  | none => none

/-- Idealized authenticated encoding: the body, self-delimited by its length
and duplicated.  The duplication plays the role of an unforgeable integrity
tag: a valid sealing is rigid in the sense that no other valid sealing lies
at Hamming distance one from it. -/
def sealBytes (body : Bytes) : Bytes := encNat body.length ++ body ++ body

/-- Inverse of `sealBytes`; succeeds only on exact images of `sealBytes`. -/
def unsealBytes (l : Bytes) : Option Bytes :=
  match decodeNat l with
  | some (n, r) =>
    if _h : r.length = 2 * n ∧ r.drop n = r.take n then some (r.take n) else none
  | none => none

theorem decodeNat_encNat_append (n : Nat) (r : Bytes) :
    decodeNat (encNat n ++ r) = some (n, r) := by
  induction n with
  | zero => rfl
  | succ k ih =>
    have hshape : encNat (k + 1) ++ r = 1 :: (encNat k ++ r) := by
      simp [encNat, List.replicate_succ]
    rw [hshape]
    show (match decodeNat (encNat k ++ r) with
          | some (n, r) => some (n + 1, r)
          | none => none) = some (k + 1, r)
    rw [ih]

theorem decodeNat_canon {l : Bytes} {n : Nat} {r : Bytes}
    (h : decodeNat l = some (n, r)) : l = encNat n ++ r := by
  induction l generalizing n with
  | nil => simp [decodeNat] at h
  | cons b rest ih =>
    match b, h with
    | 0, h =>
      simp only [decodeNat, Option.some.injEq, Prod.mk.injEq] at h
      obtain ⟨rfl, rfl⟩ := h
      simp [encNat]
    | 1, h =>
      simp only [decodeNat] at h
      cases hd : decodeNat rest with
      | none => rw [hd] at h; exact absurd h (by simp)
      | some p =>
        rw [hd] at h
        obtain ⟨m, r0⟩ := p
        simp only [Option.some.injEq, Prod.mk.injEq] at h
        obtain ⟨rfl, rfl⟩ := h
        have := ih (n := m) hd
        simp [encNat, List.replicate_succ, this]
    | (k + 2), h => simp [decodeNat] at h

theorem decodeBytes_encBytes_append (b r : Bytes) :
    decodeBytes (encBytes b ++ r) = some (b, r) := by
  simp [decodeBytes, encBytes, List.append_assoc, decodeNat_encNat_append,
    List.take_append_of_le_length, List.drop_append_of_le_length]

theorem unsealBytes_sealBytes (b : Bytes) : unsealBytes (sealBytes b) = some b := by
  have h1 : sealBytes b = encNat b.length ++ (b ++ b) := by
    simp [sealBytes, List.append_assoc]
  unfold unsealBytes
  rw [h1, decodeNat_encNat_append]
  have hc : (b ++ b).length = 2 * b.length ∧
      (b ++ b).drop b.length = (b ++ b).take b.length := by
    refine ⟨by simp; omega, ?_⟩
    rw [List.drop_left, List.take_left]
  show (if _h : (b ++ b).length = 2 * b.length ∧
      (b ++ b).drop b.length = (b ++ b).take b.length then
      some ((b ++ b).take b.length) else none) = some b
  rw [dif_pos hc, List.take_left]

theorem sealBytes_length (b : Bytes) : (sealBytes b).length = 3 * b.length + 1 := by
  simp [sealBytes, encNat]; omega

theorem unsealBytes_canon {l b : Bytes} (h : unsealBytes l = some b) : l = sealBytes b := by
  unfold unsealBytes at h
  cases hd : decodeNat l with
  | none => rw [hd] at h; exact absurd h (by simp)
  | some p =>
    obtain ⟨n, r⟩ := p
    rw [hd] at h
    replace h : (if _h : r.length = 2 * n ∧ r.drop n = r.take n then
        some (r.take n) else none) = some b := h
    by_cases hc : r.length = 2 * n ∧ r.drop n = r.take n
    · rw [dif_pos hc] at h
      obtain ⟨h1, h2⟩ := hc
      simp only [Option.some.injEq] at h
      subst h
      have hl := decodeNat_canon hd
      have hr : r = r.take n ++ r.take n := by
        conv_lhs => rw [← List.take_append_drop n r, h2]
      have hlen : (r.take n).length = n := by
        simp [List.length_take]; omega
      rw [hl, hr]
      simp [sealBytes, hlen]
    · rw [dif_neg hc] at h; exact absurd h (by simp)

/-- Rigidity: flipping one byte of a valid sealing never yields a valid
sealing (the model of authentication-tag / OAEP-padding verification). -/
theorem unsealBytes_set_ne {b : Bytes} {i : Nat} {v : Nat}
    (hi : i < (sealBytes b).length) (hv : v ≠ (sealBytes b).getD i 0) :
    unsealBytes ((sealBytes b).set i v) = none := by
  cases hu : unsealBytes ((sealBytes b).set i v) with
  | none => rfl
  | some b' =>
    exfalso
    have hcan := unsealBytes_canon hu
    have hlen : (sealBytes b').length = (sealBytes b).length := by
      rw [← hcan]; simp
    have hlb : b'.length = b.length := by
      have := sealBytes_length b; have := sealBytes_length b'; omega
    -- The two sealings agree outside position `i`, and their length prefixes
    -- agree everywhere; a difference in the duplicated body shows up twice.
    have hset : (sealBytes b).set i v = sealBytes b' := hcan
    have hpref : encNat b.length = encNat b'.length := by rw [hlb]
    -- Unfold both sealings as prefix ++ (body ++ body).
    have hb : sealBytes b = encNat b.length ++ (b ++ b) := by
      simp [sealBytes, List.append_assoc]
    have hb' : sealBytes b' = encNat b.length ++ (b' ++ b') := by
      simp [sealBytes, List.append_assoc, hlb]
    have hplen : (encNat b.length).length = b.length + 1 := by
      simp [encNat]
    by_cases hip : i < b.length + 1
    · -- mutation inside the length prefix: the prefixes of the two sealings
      -- coincide, contradicting `v ≠` the original byte there
      have : ((sealBytes b).set i v).getD i 0 = v := by
        rw [List.getD_eq_getElem?_getD, List.getElem?_set_self]
        · simp
        · omega
      rw [hset, hb'] at this
      rw [hb] at hv
      have h1 : (encNat b.length ++ (b' ++ b')).getD i 0 =
          (encNat b.length).getD i 0 := by
        rw [List.getD_eq_getElem?_getD, List.getD_eq_getElem?_getD,
          List.getElem?_append_left (by omega)]
      have h2 : (encNat b.length ++ (b ++ b)).getD i 0 =
          (encNat b.length).getD i 0 := by
        rw [List.getD_eq_getElem?_getD, List.getD_eq_getElem?_getD,
          List.getElem?_append_left (by omega)]
      rw [h1] at this
      rw [h2] at hv
      exact hv this.symm
    · -- mutation inside the duplicated body
      push_neg at hip
      set j := i - (b.length + 1) with hj
      have hjlt : j < b.length + b.length := by
        have := sealBytes_length b
        simp [hb] at hi ⊢
        omega
      have hsplit : (sealBytes b).set i v = encNat b.length ++ ((b ++ b).set j v) := by
        rw [hb, List.set_append_right _ _ (by omega), hplen]
      rw [hsplit, hb'] at hset
      have hbody : (b ++ b).set j v = b' ++ b' := by
        exact List.append_cancel_left hset
      -- value at position j changed, but anything at the mirror position
      -- (j + b.length or j - b.length) did not; both read the same body byte
      have hvj : v ≠ (b ++ b).getD j 0 := by
        rw [hb] at hv
        intro hcontra
        apply hv
        rw [List.getD_eq_getElem?_getD, List.getElem?_append_right (by omega)]
        rw [List.getD_eq_getElem?_getD] at hcontra
        rw [hplen, ← hj, hcontra]
      by_cases hjb : j < b.length
      · -- first copy mutated at j, second copy untouched
        rw [List.set_append_left _ _ hjb] at hbody
        obtain ⟨hfst, hsnd⟩ := List.append_inj hbody (by simp [hlb])
        have hstab : b.set j v = b := hfst.trans hsnd.symm
        have hvalj : v = b.getD j 0 := by
          have := congrArg (fun l => l[j]?) hstab
          simp only [List.getElem?_set_self hjb] at this
          rw [List.getD_eq_getElem?_getD, ← this]
          rfl
        apply hvj
        rw [List.getD_eq_getElem?_getD, List.getElem?_append_left hjb,
          ← List.getD_eq_getElem?_getD]
        exact hvalj
      · -- second copy mutated at j - |b|, first copy untouched
        push_neg at hjb
        set k := j - b.length with hk
        have hkb : k < b.length := by omega
        rw [List.set_append_right _ _ hjb] at hbody
        obtain ⟨hfst, hsnd⟩ := List.append_inj hbody (by simp [hlb])
        have hstab : b.set k v = b := by
          rw [← hk] at hsnd
          exact hsnd.trans hfst.symm
        have hvalj : v = b.getD k 0 := by
          have := congrArg (fun l => l[k]?) hstab
          simp only [List.getElem?_set_self hkb] at this
          rw [List.getD_eq_getElem?_getD, ← this]
          rfl
        apply hvj
        rw [List.getD_eq_getElem?_getD, List.getElem?_append_right hjb,
          ← hk, ← List.getD_eq_getElem?_getD]
        exact hvalj

/-! ### base64 (`btoa` / `atob`)

`btoa` is RFC 4648 base64 over a binary string whose char codes are the
bytes; `atob` is the WHATWG forgiving-base64 decode (ASCII whitespace is
removed; with padded length, up to two trailing `=` are stripped; a
remaining length of 1 mod 4 or a character outside the alphabet is an
error; trailing bits are discarded).  We represent the binary string by
its list of char codes, so the repository's `String.fromCharCode` /
`charCodeAt` loops become the identity. -/

/-- The base64 alphabet character for a sextet. -/
def sextetToChar (s : Nat) : Char :=
  if s < 26 then Char.ofNat (65 + s)
  else if s < 52 then Char.ofNat (97 + (s - 26))
  else if s < 62 then Char.ofNat (48 + (s - 52))
  else if s = 62 then '+' else '/'

/-- Sextet value of a base64 alphabet character. -/
def charToSextet (c : Char) : Nat :=
  if 'A' ≤ c ∧ c ≤ 'Z' then c.toNat - 65
  else if 'a' ≤ c ∧ c ≤ 'z' then c.toNat - 97 + 26
  else if '0' ≤ c ∧ c ≤ '9' then c.toNat - 48 + 52
  else if c = '+' then 62 else 63

/-- Membership in the base64 alphabet. -/
def isB64Char (c : Char) : Bool :=
  ('A' ≤ c ∧ c ≤ 'Z') ∨ ('a' ≤ c ∧ c ≤ 'z') ∨ ('0' ≤ c ∧ c ≤ '9') ∨ c = '+' ∨ c = '/'

/-- ASCII whitespace, removed by forgiving-base64. -/
def isWsChar (c : Char) : Bool :=
  c = ' ' ∨ c = '\t' ∨ c = '\n' ∨ c = Char.ofNat 12 ∨ c = Char.ofNat 13

/-- Bytes to sextets, grouping three bytes into four sextets. -/
def bytesToSextets : List Nat → List Nat
  | a :: b :: c :: rest =>
    (a / 4) :: ((a % 4) * 16 + b / 16) :: ((b % 16) * 4 + c / 64) :: (c % 64) ::
      bytesToSextets rest
  | [a, b] => [a / 4, (a % 4) * 16 + b / 16, (b % 16) * 4]
  | [a] => [a / 4, (a % 4) * 16]
  | [] => []

/-- Sextets to bytes, grouping four sextets into three bytes; trailing
groups of two or three sextets give one or two bytes (extra bits dropped,
as forgiving-base64 does). -/
def sextetsToBytes : List Nat → List Nat
  | s1 :: s2 :: s3 :: s4 :: rest =>
    (s1 * 4 + s2 / 16) :: ((s2 % 16) * 16 + s3 / 4) :: ((s3 % 4) * 64 + s4) ::
      sextetsToBytes rest
  | [s1, s2, s3] => [s1 * 4 + s2 / 16, (s2 % 16) * 16 + s3 / 4]
  | [s1, s2] => [s1 * 4 + s2 / 16]
  | _ => []

/-- `btoa` on a binary string given by its char codes. -/
def btoaChars (bs : List Nat) : List Char :=
  (bytesToSextets bs).map sextetToChar ++ List.replicate ((3 - bs.length % 3) % 3) '='

/-- Strip one or two trailing `=` characters. -/
def stripPad (l : List Char) : List Char :=
  match l.reverse with
  | c1 :: c2 :: r => if c1 = '=' then (if c2 = '=' then r.reverse else (c2 :: r).reverse) else l
  | [c1] => if c1 = '=' then [] else l
  | [] => l

/-- `atob` (forgiving-base64 decode); `none` models the thrown
`InvalidCharacterError`. -/
def atobChars (s : List Char) : Option (List Nat) :=
  let d1 := s.filter (fun c => !(isWsChar c))
  let d2 := if d1.length % 4 = 0 then stripPad d1 else d1
  if d2.length % 4 = 1 then none
  else if d2.all isB64Char then some (sextetsToBytes (d2.map charToSextet))
  else none

/-- `arrayBufferToBase64` from `src/lib/crypto.ts`: build the binary string
from the buffer's bytes and `btoa` it. -/
def arrayBufferToBase64 (buffer : Bytes) : String := String.mk (btoaChars buffer)

/-- `base64ToArrayBuffer` from `src/lib/crypto.ts`: `atob`, then read the
char codes back into a buffer.  `none` is the propagated `atob` exception. -/
def base64ToArrayBuffer (base64 : String) : Option Bytes := atobChars base64.data

theorem charToSextet_sextetToChar : ∀ s < 64, charToSextet (sextetToChar s) = s := by
  decide

theorem sextetToChar_props : ∀ s < 64, isB64Char (sextetToChar s) = true ∧
    sextetToChar s ≠ '=' ∧ sextetToChar s ≠ '-' ∧ isWsChar (sextetToChar s) = false := by
  decide

theorem bytesToSextets_lt {bs : Bytes} (hv : ValidBytes bs) :
    ∀ s ∈ bytesToSextets bs, s < 64 := by
  induction bs using bytesToSextets.induct with
  | case1 a b c rest ih =>
    have ha := hv a (by simp)
    have hb := hv b (by simp)
    have hc := hv c (by simp)
    intro s hs
    simp only [bytesToSextets, List.mem_cons] at hs
    rcases hs with rfl | rfl | rfl | rfl | hs
    · omega
    · omega
    · omega
    · omega
    · exact ih (fun x hx => hv x (by simp [hx])) s hs
  | case2 a b =>
    have ha := hv a (by simp)
    have hb := hv b (by simp)
    intro s hs
    simp only [bytesToSextets, List.mem_cons] at hs
    rcases hs with rfl | rfl | rfl | hs
    · omega
    · omega
    · omega
    · simp at hs
  | case3 a =>
    have ha := hv a (by simp)
    intro s hs
    simp only [bytesToSextets, List.mem_cons] at hs
    rcases hs with rfl | rfl | hs
    · omega
    · omega
    · simp at hs
  | case4 => intro s hs; simp [bytesToSextets] at hs

theorem length_bytesToSextets (bs : Bytes) :
    (bytesToSextets bs).length = bs.length + (bs.length + 2) / 3 := by
  induction bs using bytesToSextets.induct with
  | case1 a b c rest ih => simp only [bytesToSextets, List.length_cons, ih]; omega
  | case2 a b => simp [bytesToSextets]
  | case3 a => simp [bytesToSextets]
  | case4 => simp [bytesToSextets]

theorem sextetsToBytes_bytesToSextets {bs : Bytes} (hv : ValidBytes bs) :
    sextetsToBytes (bytesToSextets bs) = bs := by
  induction bs using bytesToSextets.induct with
  | case1 a b c rest ih =>
    have ha := hv a (by simp)
    have hb := hv b (by simp)
    have hc := hv c (by simp)
    have ihh := ih (fun x hx => hv x (by simp [hx]))
    simp only [bytesToSextets, sextetsToBytes, ihh, List.cons.injEq]
    exact ⟨by omega, by omega, by omega, trivial⟩
  | case2 a b =>
    have ha := hv a (by simp)
    have hb := hv b (by simp)
    simp only [bytesToSextets, sextetsToBytes, List.cons.injEq]
    exact ⟨by omega, by omega, trivial⟩
  | case3 a =>
    have ha := hv a (by simp)
    simp only [bytesToSextets, sextetsToBytes, List.cons.injEq]
    exact ⟨by omega, trivial⟩
  | case4 => rfl

theorem mem_btoaChars {bs : Bytes} (hv : ValidBytes bs) {c : Char}
    (hc : c ∈ btoaChars bs) : (∃ s < 64, c = sextetToChar s) ∨ c = '=' := by
  simp only [btoaChars, List.mem_append, List.mem_map] at hc
  rcases hc with ⟨s, hs, rfl⟩ | hc
  · exact Or.inl ⟨s, bytesToSextets_lt hv s hs, rfl⟩
  · exact Or.inr (List.eq_of_mem_replicate hc)

theorem stripPad_append_replicate {l : List Char} {p : Nat}
    (hl : ∀ c ∈ l, c ≠ '=') (hp : p ≤ 2) :
    stripPad (l ++ List.replicate p '=') = l := by
  interval_cases p
  · -- no padding
    rw [List.replicate_zero, List.append_nil]
    unfold stripPad
    cases hrev : l.reverse with
    | nil => rfl
    | cons c1 t =>
      have hc1 : c1 ∈ l := by
        rw [← List.mem_reverse, hrev]; simp
      cases t with
      | nil => simp [hl c1 hc1]
      | cons c2 t2 => simp [hl c1 hc1]
  · -- one '='
    have hrev : (l ++ List.replicate 1 '=').reverse = '=' :: l.reverse := by simp
    unfold stripPad
    rw [hrev]
    cases hrl : l.reverse with
    | nil =>
      have : l = [] := by simpa using congrArg List.reverse hrl
      simp [this]
    | cons c2 t2 =>
      have hc2 : c2 ∈ l := by
        rw [← List.mem_reverse, hrl]; simp
      have hne : ¬ (c2 = '=') := hl c2 hc2
      simp [hne, ← hrl]
  · -- two '='
    have hrev : (l ++ List.replicate 2 '=').reverse = '=' :: '=' :: l.reverse := by simp
    unfold stripPad
    rw [hrev]
    simp

theorem length_btoaChars_mod (bs : Bytes) : (btoaChars bs).length % 4 = 0 := by
  have h := length_bytesToSextets bs
  simp only [btoaChars, List.length_append, List.length_map, List.length_replicate, h]
  omega

theorem atobChars_btoaChars {bs : Bytes} (hv : ValidBytes bs) :
    atobChars (btoaChars bs) = some bs := by
  have hmem := fun c hc => mem_btoaChars hv (c := c) hc
  have hfilter : (btoaChars bs).filter (fun c => !(isWsChar c)) = btoaChars bs := by
    rw [List.filter_eq_self]
    intro c hc
    rcases hmem c hc with ⟨s, hs, rfl⟩ | rfl
    · simp [(sextetToChar_props s hs).2.2.2]
    · decide
  have hnopad : ∀ c ∈ (bytesToSextets bs).map sextetToChar, c ≠ '=' := by
    intro c hc
    simp only [List.mem_map] at hc
    obtain ⟨s, hs, rfl⟩ := hc
    exact (sextetToChar_props s (bytesToSextets_lt hv s hs)).2.1
  have hstrip : stripPad (btoaChars bs) = (bytesToSextets bs).map sextetToChar := by
    unfold btoaChars
    exact stripPad_append_replicate hnopad (by omega)
  have hlen4 := length_btoaChars_mod bs
  unfold atobChars
  simp only [hfilter, hlen4, hstrip, eq_self_iff_true, if_true]
  have hlenmod : ((bytesToSextets bs).map sextetToChar).length % 4 ≠ 1 := by
    have h := length_bytesToSextets bs
    simp only [List.length_map, h]
    omega
  rw [if_neg hlenmod]
  have hall : ((bytesToSextets bs).map sextetToChar).all isB64Char = true := by
    rw [List.all_eq_true]
    intro c hc
    simp only [List.mem_map] at hc
    obtain ⟨s, hs, rfl⟩ := hc
    exact (sextetToChar_props s (bytesToSextets_lt hv s hs)).1
  rw [if_pos hall]
  have hmapmap : ((bytesToSextets bs).map sextetToChar).map charToSextet =
      bytesToSextets bs := by
    rw [List.map_map]
    have hpt : ∀ s ∈ bytesToSextets bs, (charToSextet ∘ sextetToChar) s = id s := by
      intro s hs
      simp only [Function.comp_apply, id_eq]
      exact charToSextet_sextetToChar s (bytesToSextets_lt hv s hs)
    rw [List.map_congr_left hpt, List.map_id]
  rw [hmapmap, sextetsToBytes_bytesToSextets hv]

/-- The two base64 helpers of the source invert each other (claim C10). -/
theorem base64ToArrayBuffer_arrayBufferToBase64 {bs : Bytes} (hv : ValidBytes bs) :
    base64ToArrayBuffer (arrayBufferToBase64 bs) = some bs := by
  unfold base64ToArrayBuffer arrayBufferToBase64
  exact atobChars_btoaChars hv


/-! ### UTF-8 (`TextEncoder` / `TextDecoder`) -/

/-- UTF-8 encoding of a single code point. -/
def utf8EncodeChar (n : Nat) : Bytes :=
  if n < 0x80 then [n]
  else if n < 0x800 then [0xC0 + n / 64, 0x80 + n % 64]
  else if n < 0x10000 then [0xE0 + n / 4096, 0x80 + (n / 64) % 64, 0x80 + n % 64]
  else [0xF0 + n / 262144, 0x80 + (n / 4096) % 64, 0x80 + (n / 64) % 64, 0x80 + n % 64]

/-- Decode one UTF-8 character from the front of the input; rejects bad
continuation bytes, overlong forms, surrogates and out-of-range values. -/
def utf8DecodeOne : List Nat → Option (Nat × List Nat)
  | [] => none
  | b :: rest =>
    if b < 0x80 then some (b, rest)
    else if b < 0xC0 then none
    else if b < 0xE0 then
      match rest with
      | b2 :: r =>
        if 0x80 ≤ b2 ∧ b2 < 0xC0 then
          if (b - 0xC0) * 64 + (b2 - 0x80) < 0x80 then none
          else some ((b - 0xC0) * 64 + (b2 - 0x80), r)
        else none
      | [] => none
    else if b < 0xF0 then
      match rest with
      | b2 :: b3 :: r =>
        if (0x80 ≤ b2 ∧ b2 < 0xC0) ∧ (0x80 ≤ b3 ∧ b3 < 0xC0) then
          if (b - 0xE0) * 4096 + (b2 - 0x80) * 64 + (b3 - 0x80) < 0x800 ∨
              (0xD800 ≤ (b - 0xE0) * 4096 + (b2 - 0x80) * 64 + (b3 - 0x80) ∧
               (b - 0xE0) * 4096 + (b2 - 0x80) * 64 + (b3 - 0x80) < 0xE000) then none
          else some ((b - 0xE0) * 4096 + (b2 - 0x80) * 64 + (b3 - 0x80), r)
        else none
      | _ => none
    else if b < 0xF8 then
      match rest with
      | b2 :: b3 :: b4 :: r =>
        if (0x80 ≤ b2 ∧ b2 < 0xC0) ∧ (0x80 ≤ b3 ∧ b3 < 0xC0) ∧ (0x80 ≤ b4 ∧ b4 < 0xC0) then
          if (b - 0xF0) * 262144 + (b2 - 0x80) * 4096 + (b3 - 0x80) * 64 + (b4 - 0x80)
              < 0x10000 ∨
             0x110000 ≤ (b - 0xF0) * 262144 + (b2 - 0x80) * 4096 + (b3 - 0x80) * 64 +
              (b4 - 0x80) then none
          else some
            ((b - 0xF0) * 262144 + (b2 - 0x80) * 4096 + (b3 - 0x80) * 64 + (b4 - 0x80), r)
        else none
      | _ => none
    else none

/-- Fuelled UTF-8 decoding loop; the fuel only needs to cover the number of
characters (each consumes at least one byte). -/
def utf8DecodeAux : Nat → List Nat → Option (List Nat)
  | _, [] => some []
  | 0, _ :: _ => none
  | fuel + 1, b :: rest =>
    match utf8DecodeOne (b :: rest) with
    | some (n, r) => (utf8DecodeAux fuel r).map (n :: ·)
    | none => none

/-- Strict UTF-8 decoding into code points. -/
def utf8Decode (l : List Nat) : Option (List Nat) := utf8DecodeAux l.length l

/-- `new TextEncoder().encode(message)`: UTF-8 bytes of the string. -/
def textEncode (s : String) : Bytes := s.data.flatMap (fun c => utf8EncodeChar c.toNat)

/-- `new TextDecoder().decode(buffer)`: UTF-8 decoding back to a string
(`none` models a decoding failure on malformed input). -/
def textDecode (b : Bytes) : Option String :=
  (utf8Decode b).map (fun cps => String.mk (cps.map Char.ofNat))

/-- A Unicode scalar value: in range and not a surrogate (what `Char` carries). -/
def IsScalar (n : Nat) : Prop := n < 0x110000 ∧ ¬ (0xD800 ≤ n ∧ n < 0xE000)

theorem isScalar_char_toNat (c : Char) : IsScalar c.toNat := by
  have h := c.valid
  have he : c.toNat = c.val.toNat := rfl
  rcases h with h | h
  · exact ⟨by omega, by omega⟩
  · refine ⟨by omega, by omega⟩

theorem utf8EncodeChar_valid {n : Nat} (hn : n < 0x110000) :
    ∀ x ∈ utf8EncodeChar n, x < 256 := by
  intro x hx
  unfold utf8EncodeChar at hx
  by_cases h1 : n < 0x80
  · simp [h1] at hx; omega
  · by_cases h2 : n < 0x800
    · simp [h1, h2] at hx; omega
    · by_cases h3 : n < 0x10000
      · simp [h1, h2, h3] at hx
        rcases hx with rfl | rfl | rfl <;> omega
      · simp [h1, h2, h3] at hx
        rcases hx with rfl | rfl | rfl | rfl <;> omega

theorem utf8EncodeChar_ne_nil (n : Nat) : utf8EncodeChar n ≠ [] := by
  unfold utf8EncodeChar
  split
  · simp
  · split
    · simp
    · split <;> simp

theorem utf8DecodeOne_encodeChar {n : Nat} (hn : IsScalar n) (rest : Bytes) :
    utf8DecodeOne (utf8EncodeChar n ++ rest) = some (n, rest) := by
  obtain ⟨hlt, hsur⟩ := hn
  unfold utf8EncodeChar
  by_cases h1 : n < 0x80
  · simp only [if_pos h1, List.cons_append, List.nil_append]
    simp [utf8DecodeOne, h1]
  · by_cases h2 : n < 0x800
    · have ha : ¬ (0xC0 + n / 64 < 0x80) := by omega
      have hb : ¬ (0xC0 + n / 64 < 0xC0) := by omega
      have hcc : 0xC0 + n / 64 < 0xE0 := by omega
      have hd : 0x80 ≤ 0x80 + n % 64 ∧ 0x80 + n % 64 < 0xC0 := by omega
      have hm : (0xC0 + n / 64 - 0xC0) * 64 + (0x80 + n % 64 - 0x80) = n := by omega
      simp only [if_neg h1, if_pos h2, List.cons_append, List.nil_append]
      simp [utf8DecodeOne, ha, hb, hcc, hd, hm, h1]
      omega
    · by_cases h3 : n < 0x10000
      · have ha : ¬ (0xE0 + n / 4096 < 0x80) := by omega
        have hb : ¬ (0xE0 + n / 4096 < 0xC0) := by omega
        have hcc : ¬ (0xE0 + n / 4096 < 0xE0) := by omega
        have hdd : 0xE0 + n / 4096 < 0xF0 := by omega
        have he : (0x80 ≤ 0x80 + (n / 64) % 64 ∧ 0x80 + (n / 64) % 64 < 0xC0) ∧
            (0x80 ≤ 0x80 + n % 64 ∧ 0x80 + n % 64 < 0xC0) := by omega
        have hm : (0xE0 + n / 4096 - 0xE0) * 4096 + (0x80 + (n / 64) % 64 - 0x80) * 64 +
            (0x80 + n % 64 - 0x80) = n := by omega
        have hf : ¬ (n < 0x800 ∨ (0xD800 ≤ n ∧ n < 0xE000)) := by
          push_neg
          refine ⟨by omega, fun hge => by omega⟩
        simp only [if_neg h1, if_neg h2, if_pos h3, List.cons_append, List.nil_append]
        simp only [utf8DecodeOne, if_neg ha, if_neg hb, if_neg hcc, if_pos hdd,
          if_pos he, hm, if_neg hf]
      · have ha : ¬ (0xF0 + n / 262144 < 0x80) := by omega
        have hb : ¬ (0xF0 + n / 262144 < 0xC0) := by omega
        have hcc : ¬ (0xF0 + n / 262144 < 0xE0) := by omega
        have hdd : ¬ (0xF0 + n / 262144 < 0xF0) := by omega
        have hee : 0xF0 + n / 262144 < 0xF8 := by omega
        have hg : (0x80 ≤ 0x80 + (n / 4096) % 64 ∧ 0x80 + (n / 4096) % 64 < 0xC0) ∧
            (0x80 ≤ 0x80 + (n / 64) % 64 ∧ 0x80 + (n / 64) % 64 < 0xC0) ∧
            (0x80 ≤ 0x80 + n % 64 ∧ 0x80 + n % 64 < 0xC0) := by omega
        have hm : (0xF0 + n / 262144 - 0xF0) * 262144 + (0x80 + (n / 4096) % 64 - 0x80) * 4096 +
            (0x80 + (n / 64) % 64 - 0x80) * 64 + (0x80 + n % 64 - 0x80) = n := by omega
        have hf : ¬ (n < 0x10000 ∨ 0x110000 ≤ n) := by omega
        simp only [if_neg h1, if_neg h2, if_neg h3, List.cons_append, List.nil_append]
        simp only [utf8DecodeOne, if_neg ha, if_neg hb, if_neg hcc, if_neg hdd, if_pos hee,
          if_pos hg, hm, if_neg hf]

theorem utf8DecodeAux_fuel_congr :
    ∀ (f f' : Nat) (l : List Nat), l.length ≤ f → l.length ≤ f' →
      utf8DecodeAux f l = utf8DecodeAux f' l := by
  intro f
  induction f with
  | zero =>
    intro f' l hf _
    have : l = [] := by
      cases l with
      | nil => rfl
      | cons a t => simp at hf
    subst this
    cases f' <;> rfl
  | succ k ih =>
    intro f' l hf hf'
    cases l with
    | nil => cases f' <;> rfl
    | cons b rest =>
      cases f' with
      | zero => simp at hf'
      | succ k' =>
        show (match utf8DecodeOne (b :: rest) with
              | some (n, r) => (utf8DecodeAux k r).map (n :: ·)
              | none => none) =
             (match utf8DecodeOne (b :: rest) with
              | some (n, r) => (utf8DecodeAux k' r).map (n :: ·)
              | none => none)
        cases hone : utf8DecodeOne (b :: rest) with
        | none => rfl
        | some p =>
          obtain ⟨n, r⟩ := p
          have hlen : r.length < (b :: rest).length := by
            clear ih hf hf'
            unfold utf8DecodeOne at hone
            repeat' split at hone
            all_goals simp_all
            all_goals omega
          simp only []
          rw [ih k' r (by simp_all; omega) (by simp_all; omega)]

theorem utf8Decode_encodeChar_append {n : Nat} (hn : IsScalar n) (rest : Bytes) :
    utf8Decode (utf8EncodeChar n ++ rest) = (utf8Decode rest).map (n :: ·) := by
  unfold utf8Decode
  have hne : utf8EncodeChar n ≠ [] := utf8EncodeChar_ne_nil n
  obtain ⟨b, t, hbt⟩ : ∃ b t, utf8EncodeChar n ++ rest = b :: t := by
    cases he : utf8EncodeChar n with
    | nil => exact absurd he hne
    | cons x xs => exact ⟨x, xs ++ rest, by simp [he]⟩
  have hlen1 : 1 ≤ (utf8EncodeChar n).length := by
    cases he : utf8EncodeChar n with
    | nil => exact absurd he hne
    | cons x xs => simp
  rw [hbt]
  have hlenbt : (b :: t).length = (utf8EncodeChar n).length + rest.length := by
    rw [← hbt]; simp
  obtain ⟨k, hk⟩ : ∃ k, (b :: t).length = k + 1 := ⟨t.length, by simp⟩
  rw [hk]
  show (match utf8DecodeOne (b :: t) with
        | some (m, r) => (utf8DecodeAux k r).map (m :: ·)
        | none => none) = (utf8DecodeAux rest.length rest).map (n :: ·)
  rw [← hbt, utf8DecodeOne_encodeChar hn rest]
  simp only []
  rw [utf8DecodeAux_fuel_congr k rest.length rest (by omega) (le_refl _)]

theorem utf8Decode_flatMap {cps : List Nat} (h : ∀ n ∈ cps, IsScalar n) :
    utf8Decode (cps.flatMap utf8EncodeChar) = some cps := by
  induction cps with
  | nil => rfl
  | cons c t ih =>
    rw [List.flatMap_cons, utf8Decode_encodeChar_append (h c (by simp)),
      ih (fun n hn => h n (by simp [hn]))]
    rfl

theorem textEncode_valid (s : String) : ValidBytes (textEncode s) := by
  intro x hx
  unfold textEncode at hx
  rw [List.mem_flatMap] at hx
  obtain ⟨c, _, hxc⟩ := hx
  exact utf8EncodeChar_valid (isScalar_char_toNat c).1 x hxc

/-- `TextDecoder` inverts `TextEncoder` (on every Lean string, i.e. every
sequence of Unicode scalar values). -/
theorem textDecode_textEncode (s : String) : textDecode (textEncode s) = some s := by
  unfold textDecode textEncode
  have henc : s.data.flatMap (fun c => utf8EncodeChar c.toNat) =
      (s.data.map Char.toNat).flatMap utf8EncodeChar := by
    rw [List.flatMap_map]
  rw [henc, utf8Decode_flatMap (fun n hn => ?_)]
  · simp only [Option.map_some']
    congr 1
    rw [List.map_map]
    have hpt : ∀ c ∈ s.data, (Char.ofNat ∘ Char.toNat) c = id c := by
      intro c _
      simp [Char.ofNat_toNat]
    rw [List.map_congr_left hpt, List.map_id]
  · rw [List.mem_map] at hn
    obtain ⟨c, _, rfl⟩ := hn
    exact isScalar_char_toNat c

/-! ### Web Crypto model: key handles and `crypto.subtle` operations -/

/-- A `KeyUsage` as checked by `crypto.subtle`. -/
inductive KeyUsage
  | encrypt
  | decrypt
deriving DecidableEq, Repr

/-- The cryptographic material behind a key handle.  RSA keys are named by
the generation call that produced the modulus; AES keys are their raw
bytes. -/
inductive KeyMaterial
  | rsaPub (kid : Nat)
  | rsaPriv (kid : Nat)
  | aes (bytes : Bytes)
deriving DecidableEq, Repr

/-- The algorithm metadata attached to a key handle. -/
inductive KeyAlg
  | rsaOaep (modulusLength : Nat) (hash : String)
  | aesGcm (length : Nat)
deriving DecidableEq, Repr

/-- A `CryptoKey` handle. -/
structure CryptoKey where
  material : KeyMaterial
  alg : KeyAlg
  extractable : Bool
  usages : List KeyUsage
deriving DecidableEq, Repr

/-- A `CryptoKeyPair`. -/
structure CryptoKeyPair where
  publicKey : CryptoKey
  privateKey : CryptoKey
deriving DecidableEq, Repr

/-- SPKI encoding of an RSA public key (symbolic, self-delimiting). -/
def spkiEncode (kid : Nat) : Bytes := 2 :: encNat kid

/-- PKCS8 encoding of an RSA private key (symbolic, self-delimiting). -/
def pkcs8Encode (kid : Nat) : Bytes := 3 :: encNat kid

/-- The idealized RSA-OAEP ciphertext of `payload` under public key `kid`
with encoding randomness `seed`. -/
def rsaSeal (kid seed : Nat) (payload : Bytes) : Bytes :=
  sealBytes (encNat kid ++ encNat seed ++ payload)

/-- The idealized AES-GCM ciphertext (ciphertext plus authentication tag)
of `payload` under raw key `keyBytes` and nonce `iv`. -/
def gcmSeal (keyBytes iv payload : Bytes) : Bytes :=
  sealBytes (encBytes keyBytes ++ encBytes iv ++ payload)

/-- `crypto.subtle.generateKey({name may be RSA-OAEP, modulusLength 4096,
hash SHA-256}, true, [encrypt, decrypt])`: WebCrypto assigns the applicable
subset of the requested usages to each half, marks the public half always
extractable and the private half with the requested flag.  `kid` is the
fresh randomness of the generation call. -/
def subtleGenerateRsaKeyPair (kid : Nat) : CryptoKeyPair :=
  { publicKey :=
      { material := .rsaPub kid
        alg := .rsaOaep 4096 "SHA-256"
        extractable := true
        usages := [.encrypt] }
    privateKey :=
      { material := .rsaPriv kid
        alg := .rsaOaep 4096 "SHA-256"
        extractable := true
        usages := [.decrypt] } }

/-- `crypto.subtle.generateKey({name AES-GCM, length 256}, true,
[encrypt, decrypt])`; `keyBytes` is the fresh 32-byte randomness. -/
def subtleGenerateAesKey (keyBytes : Bytes) : CryptoKey :=
  { material := .aes keyBytes
    alg := .aesGcm 256
    extractable := true
    usages := [.encrypt, .decrypt] }

/-- `crypto.subtle.encrypt({name RSA-OAEP}, key, data)`: requires a public
RSA key carrying the `encrypt` usage; `none` is the thrown
`InvalidAccessError`. -/
def subtleRsaEncrypt (key : CryptoKey) (seed : Nat) (data : Bytes) : Option Bytes :=
  match key.material with
  | .rsaPub kid =>
    if KeyUsage.encrypt ∈ key.usages then some (rsaSeal kid seed data) else none
  | _ => none

/-- `crypto.subtle.decrypt({name RSA-OAEP}, key, ct)`: requires a private
RSA key carrying the `decrypt` usage; the OAEP decoding fails (`none`,
a thrown `OperationError`) unless `ct` is a well-formed encryption under
exactly this key's pair. -/
def subtleRsaDecrypt (key : CryptoKey) (ct : Bytes) : Option Bytes :=
  match key.material with
  | .rsaPriv kid =>
    if KeyUsage.decrypt ∈ key.usages then
      match unsealBytes ct with
      | some body =>
        match decodeNat body with
        | some (k, r1) =>
          if k = kid then
            match decodeNat r1 with
            | some (_, payload) => some payload
            | none => none
          else none
        | none => none
      | none => none
    else none
  | _ => none

/-- `crypto.subtle.encrypt({name AES-GCM, iv}, key, data)`. -/
def subtleAesGcmEncrypt (key : CryptoKey) (iv : Bytes) (data : Bytes) : Option Bytes :=
  match key.material with
  | .aes kb =>
    if KeyUsage.encrypt ∈ key.usages then some (gcmSeal kb iv data) else none
  | _ => none

/-- `crypto.subtle.decrypt({name AES-GCM, iv}, key, ct)`: authenticated
decryption; `none` (a thrown `OperationError`) unless `ct` is a well-formed
encryption under exactly this key and nonce. -/
def subtleAesGcmDecrypt (key : CryptoKey) (iv : Bytes) (ct : Bytes) : Option Bytes :=
  match key.material with
  | .aes kb =>
    if KeyUsage.decrypt ∈ key.usages then
      match unsealBytes ct with
      | some body =>
        match decodeBytes body with
        | some (kb', r1) =>
          match decodeBytes r1 with
          | some (iv', payload) =>
            if kb' = kb ∧ iv' = iv then some payload else none
          | none => none
        | none => none
      | none => none
    else none
  | _ => none

/-- `crypto.subtle.exportKey('spki', key)`: public RSA key, must be
extractable. -/
def subtleExportSpki (key : CryptoKey) : Option Bytes :=
  match key.material with
  | .rsaPub kid => if key.extractable then some (spkiEncode kid) else none
  | _ => none

/-- `crypto.subtle.exportKey('pkcs8', key)`: private RSA key, must be
extractable. -/
def subtleExportPkcs8 (key : CryptoKey) : Option Bytes :=
  match key.material with
  | .rsaPriv kid => if key.extractable then some (pkcs8Encode kid) else none
  | _ => none

/-- `crypto.subtle.exportKey('raw', key)`: raw AES key bytes, must be
extractable. -/
def subtleExportRaw (key : CryptoKey) : Option Bytes :=
  match key.material with
  | .aes kb => if key.extractable then some kb else none
  | _ => none

/-- `crypto.subtle.importKey('spki', data, {name RSA-OAEP, hash SHA-256},
true, ['encrypt'])`: parses the SPKI structure (`none` is the thrown
`DataError`). -/
def subtleImportSpki (data : Bytes) : Option CryptoKey :=
  match data with
  | 2 :: rest =>
    match decodeNat rest with
    | some (kid, []) =>
      some { material := .rsaPub kid
             alg := .rsaOaep 4096 "SHA-256"
             extractable := true
             usages := [.encrypt] }
    | _ => none
  | _ => none

/-- `crypto.subtle.importKey('pkcs8', data, {name RSA-OAEP, hash SHA-256},
true, ['decrypt'])`. -/
def subtleImportPkcs8 (data : Bytes) : Option CryptoKey :=
  match data with
  | 3 :: rest =>
    match decodeNat rest with
    | some (kid, []) =>
      some { material := .rsaPriv kid
             alg := .rsaOaep 4096 "SHA-256"
             extractable := true
             usages := [.decrypt] }
    | _ => none
  | _ => none

/-- `crypto.subtle.importKey('raw', data, {name AES-GCM, length 256},
false, ['decrypt'])`: the raw data must be a valid AES key length. -/
def subtleImportRawAes (data : Bytes) : Option CryptoKey :=
  if data.length = 16 ∨ data.length = 24 ∨ data.length = 32 then
    some { material := .aes data
           alg := .aesGcm 256
           extractable := false
           usages := [.decrypt] }
  else none

/-! ### The repository's crypto functions (`src/lib/crypto.ts`) -/

/-- Does `pat` occur at the head of `l`? (JS `String.prototype.replace`
matching at one position.) -/
def listStartsWith : List Char → List Char → Bool
  | _, [] => true
  | [], _ :: _ => false
  | c :: rest, p :: pt => c = p && listStartsWith rest pt

/-- JS `String.prototype.replace` with a plain-string pattern: replaces
only the first occurrence (or leaves the string unchanged if the pattern
does not occur). -/
def replaceFirst : List Char → List Char → List Char → List Char
  | [], pat, rep => if pat = [] then rep else []
  | c :: rest, pat, rep =>
    if listStartsWith (c :: rest) pat then rep ++ (c :: rest).drop pat.length
    else c :: replaceFirst rest pat rep

/-- `generateRSAKeyPair`: RSA-OAEP, 4096-bit modulus, SHA-256, extractable,
usages `[encrypt, decrypt]` (split by WebCrypto onto the two halves); `kid`
is the randomness of the underlying generation. -/
def generateRSAKeyPair (kid : Nat) : CryptoKeyPair := subtleGenerateRsaKeyPair kid

/-- `exportPublicKey`: export SPKI and frame the base64 payload in PEM
header/footer lines. -/
def exportPublicKey (key : CryptoKey) : Option String :=
  (subtleExportSpki key).map fun exported =>
    "-----BEGIN PUBLIC KEY-----\n" ++ arrayBufferToBase64 exported ++
      "\n-----END PUBLIC KEY-----"

/-- `importPublicKey`: strip the first occurrence of each marker and all
newlines, base64-decode, and import as SPKI (usable only for encryption). -/
def importPublicKey (pem : String) : Option CryptoKey := do
  let step1 := replaceFirst pem.data "-----BEGIN PUBLIC KEY-----".data []
  let step2 := replaceFirst step1 "-----END PUBLIC KEY-----".data []
  let pemContents := step2.filter (fun c => ¬ (c = '\n'))
  let binaryKey ← atobChars pemContents
  subtleImportSpki binaryKey

/-- `exportPrivateKey`: export PKCS8 and base64-encode (no framing). -/
def exportPrivateKey (key : CryptoKey) : Option String :=
  (subtleExportPkcs8 key).map arrayBufferToBase64

/-- `importPrivateKey`: base64-decode and import as PKCS8 (usable only for
decryption). -/
def importPrivateKey (keyData : String) : Option CryptoKey := do
  let binaryKey ← base64ToArrayBuffer keyData
  subtleImportPkcs8 binaryKey

/-- The envelope returned by `encryptMessage`. -/
structure Envelope where
  ciphertext : String
  iv : String
  encryptedKey : String
deriving DecidableEq, Repr

/-- `encryptMessage`: hybrid encryption.  `aesKeyBytes` is the randomness
of the AES-GCM `generateKey` call (32 bytes for length 256), `ivBytes` the
12 bytes drawn by `getRandomValues(new Uint8Array(12))`, and `rsaSeed` the
OAEP encoding randomness. -/
def encryptMessage (message : String) (recipientPublicKey : CryptoKey)
    (aesKeyBytes ivBytes : Bytes) (rsaSeed : Nat) : Option Envelope := do
  let aesKey := subtleGenerateAesKey aesKeyBytes
  let ciphertext ← subtleAesGcmEncrypt aesKey ivBytes (textEncode message)
  let exportedAesKey ← subtleExportRaw aesKey
  let encryptedAesKey ← subtleRsaEncrypt recipientPublicKey rsaSeed exportedAesKey
  pure { ciphertext := arrayBufferToBase64 ciphertext
         iv := arrayBufferToBase64 ivBytes
         encryptedKey := arrayBufferToBase64 encryptedAesKey }

/-- `decryptMessage`: unwrap the AES key with the RSA private key, import
it, then decrypt the ciphertext under the transmitted IV.  `none` is any
thrown error along the way. -/
def decryptMessage (ciphertext iv encryptedKey : String)
    (privateKey : CryptoKey) : Option String := do
  let encryptedAesKeyBuffer ← base64ToArrayBuffer encryptedKey
  let aesKeyBuffer ← subtleRsaDecrypt privateKey encryptedAesKeyBuffer
  let aesKey ← subtleImportRawAes aesKeyBuffer
  let ivBuffer ← base64ToArrayBuffer iv
  let ciphertextBuffer ← base64ToArrayBuffer ciphertext
  let decryptedBuffer ← subtleAesGcmDecrypt aesKey ivBuffer ciphertextBuffer
  textDecode decryptedBuffer

/-! ### The key store (`storePrivateKey` / `retrievePrivateKey`)

IndexedDB database `EncryptDB`, object store `keys` with keyPath `userId`:
`store.put` upserts the single record for that id, `store.get` does a point
lookup.  The store is the association list of records. -/

/-- The `keys` object store: records `{userId, privateKey}` keyed by
`userId`. -/
abbrev KeyDB := List (String × String)

/-- `IDBObjectStore.put` with keyPath `userId`: replace the record with the
same key, or append a new one. -/
def dbPut (db : KeyDB) (userId v : String) : KeyDB :=
  match db with
  | [] => [(userId, v)]
  | (k, w) :: rest => if k = userId then (userId, v) :: rest else (k, w) :: dbPut rest userId v

/-- `IDBObjectStore.get`: point lookup by key. -/
def dbGet (db : KeyDB) (userId : String) : Option String :=
  match db with
  | [] => none
  | (k, w) :: rest => if k = userId then some w else dbGet rest userId

/-- `storePrivateKey(userId, privateKey)`: `store.put({userId, privateKey})`
on the `keys` object store. -/
def storePrivateKey (db : KeyDB) (userId privateKey : String) : KeyDB :=
  dbPut db userId privateKey

/-- `retrievePrivateKey(userId)`: `store.get(userId)`, resolving with the
record's `privateKey` field or `null` when no record exists. -/
def retrievePrivateKey (db : KeyDB) (userId : String) : Option String :=
  dbGet db userId

/-- The state of the store after a sequence of `storePrivateKey` calls,
starting from the empty (freshly created) object store. -/
def runStores (ops : List (String × String)) : KeyDB :=
  ops.foldl (fun db op => storePrivateKey db op.1 op.2) []

/-- The material of the last `storePrivateKey` call for a given id within a
sequence of calls, if any. -/
def lastStore : List (String × String) → String → Option String
  | [], _ => none
  | (k, v) :: rest, u =>
    match lastStore rest u with
    | some w => some w
    | none => if k = u then some v else none

/-! ### Supporting lemmas -/

theorem validBytes_append {a b : Bytes} (ha : ValidBytes a) (hb : ValidBytes b) :
    ValidBytes (a ++ b) := by
  intro x hx
  rcases List.mem_append.mp hx with h | h
  · exact ha x h
  · exact hb x h

theorem validBytes_encNat (n : Nat) : ValidBytes (encNat n) := by
  intro x hx
  unfold encNat at hx
  rcases List.mem_append.mp hx with h | h
  · rw [List.eq_of_mem_replicate h]; omega
  · simp at h; omega

theorem validBytes_encBytes {b : Bytes} (hb : ValidBytes b) : ValidBytes (encBytes b) :=
  validBytes_append (validBytes_encNat _) hb

theorem validBytes_sealBytes {b : Bytes} (hb : ValidBytes b) : ValidBytes (sealBytes b) := by
  unfold sealBytes
  exact validBytes_append (validBytes_append (validBytes_encNat _) hb) hb

theorem validBytes_rsaSeal (kid seed : Nat) {p : Bytes} (hp : ValidBytes p) :
    ValidBytes (rsaSeal kid seed p) :=
  validBytes_sealBytes
    (validBytes_append (validBytes_append (validBytes_encNat _) (validBytes_encNat _)) hp)

theorem validBytes_gcmSeal {kb iv p : Bytes} (hkb : ValidBytes kb) (hiv : ValidBytes iv)
    (hp : ValidBytes p) : ValidBytes (gcmSeal kb iv p) :=
  validBytes_sealBytes
    (validBytes_append (validBytes_append (validBytes_encBytes hkb) (validBytes_encBytes hiv)) hp)

theorem validBytes_spkiEncode (kid : Nat) : ValidBytes (spkiEncode kid) := by
  intro x hx
  unfold spkiEncode at hx
  rcases List.mem_cons.mp hx with rfl | h
  · omega
  · exact validBytes_encNat kid x h

theorem validBytes_pkcs8Encode (kid : Nat) : ValidBytes (pkcs8Encode kid) := by
  intro x hx
  unfold pkcs8Encode at hx
  rcases List.mem_cons.mp hx with rfl | h
  · omega
  · exact validBytes_encNat kid x h

/-- RSA-OAEP round trip under the matching private key. -/
theorem subtleRsaDecrypt_rsaSeal (kid seed : Nat) (p : Bytes) :
    subtleRsaDecrypt (subtleGenerateRsaKeyPair kid).privateKey (rsaSeal kid seed p) =
      some p := by
  unfold subtleRsaDecrypt subtleGenerateRsaKeyPair rsaSeal
  simp only [List.mem_cons, List.not_mem_nil, or_false, if_pos rfl]
  rw [unsealBytes_sealBytes]
  simp only [List.append_assoc]
  rw [decodeNat_encNat_append]
  simp [decodeNat_encNat_append]

/-- RSA-OAEP decryption under the wrong key pair fails. -/
theorem subtleRsaDecrypt_wrong_key {kid kid2 seed : Nat} (hne : kid2 ≠ kid) (p : Bytes) :
    subtleRsaDecrypt (subtleGenerateRsaKeyPair kid2).privateKey (rsaSeal kid seed p) =
      none := by
  unfold subtleRsaDecrypt subtleGenerateRsaKeyPair rsaSeal
  simp only [List.mem_cons, List.not_mem_nil, or_false, if_pos rfl]
  rw [unsealBytes_sealBytes]
  simp only [List.append_assoc]
  rw [decodeNat_encNat_append]
  simp [hne.symm]

/-- Characterization: a successful RSA-OAEP decryption of a sealed wrap
can only happen under the matching private key, and recovers the payload. -/
theorem subtleRsaDecrypt_rsaSeal_inv {key : CryptoKey} {kid seed : Nat} {p d : Bytes}
    (h : subtleRsaDecrypt key (rsaSeal kid seed p) = some d) :
    key.material = KeyMaterial.rsaPriv kid ∧ d = p := by
  unfold subtleRsaDecrypt rsaSeal at h
  cases hm : key.material with
  | rsaPub k => rw [hm] at h; simp at h
  | aes kb => rw [hm] at h; simp at h
  | rsaPriv k =>
    rw [hm] at h
    simp only [unsealBytes_sealBytes, List.append_assoc, decodeNat_encNat_append] at h
    by_cases hu : KeyUsage.decrypt ∈ key.usages
    · rw [if_pos hu] at h
      by_cases hk : kid = k
      · subst hk
        rw [if_pos rfl] at h
        simp only [Option.some.injEq] at h
        exact ⟨rfl, h.symm⟩
      · rw [if_neg fun hc => hk hc] at h
        exact absurd h (by simp)
    · rw [if_neg hu] at h
      exact absurd h (by simp)

/-- AES-GCM round trip under the matching key and nonce. -/
theorem subtleAesGcmDecrypt_gcmSeal (kb iv p : Bytes) (key : CryptoKey)
    (hm : key.material = .aes kb) (hu : KeyUsage.decrypt ∈ key.usages) :
    subtleAesGcmDecrypt key iv (gcmSeal kb iv p) = some p := by
  unfold subtleAesGcmDecrypt gcmSeal
  rw [hm]
  simp only [if_pos hu]
  rw [unsealBytes_sealBytes]
  simp only [List.append_assoc]
  rw [decodeBytes_encBytes_append]
  simp only []
  rw [decodeBytes_encBytes_append]
  simp

/-- `dbPut` unfolding: empty store. -/
theorem dbPut_nil (u v : String) : dbPut [] u v = [(u, v)] := rfl

/-- `dbPut` unfolding: matching head record is replaced. -/
theorem dbPut_cons_eq (rest : KeyDB) (u x v : String) :
    dbPut ((u, x) :: rest) u v = (u, v) :: rest := by
  simp [dbPut]

/-- `dbPut` unfolding: non-matching head record is kept. -/
theorem dbPut_cons_ne {k u : String} (h : k ≠ u) (rest : KeyDB) (x v : String) :
    dbPut ((k, x) :: rest) u v = (k, x) :: dbPut rest u v := by
  simp [dbPut, h]

/-- `dbGet` unfolding: matching head record. -/
theorem dbGet_cons_eq (rest : KeyDB) (k x : String) :
    dbGet ((k, x) :: rest) k = some x := by
  simp [dbGet]

/-- `dbGet` unfolding: non-matching head record. -/
theorem dbGet_cons_ne {k w : String} (h : k ≠ w) (rest : KeyDB) (x : String) :
    dbGet ((k, x) :: rest) w = dbGet rest w := by
  simp [dbGet, h]

/-- Key store: `get` after `put`. -/
theorem dbGet_dbPut (db : KeyDB) (u v w : String) :
    dbGet (dbPut db u v) w = if u = w then some v else dbGet db w := by
  induction db with
  | nil =>
    by_cases h : u = w
    · simp [dbPut, dbGet, h]
    · simp [dbPut, dbGet, h]
  | cons p rest ih =>
    obtain ⟨k, x⟩ := p
    by_cases hk : k = u
    · subst hk
      rw [dbPut_cons_eq]
      by_cases hw : k = w
      · subst hw
        rw [dbGet_cons_eq, if_pos rfl]
      · rw [dbGet_cons_ne hw, dbGet_cons_ne hw, if_neg (fun hc => hw hc)]
    · rw [dbPut_cons_ne hk]
      by_cases hw : k = w
      · subst hw
        have hno : ¬ (u = k) := fun hc => hk hc.symm
        rw [dbGet_cons_eq, dbGet_cons_eq, if_neg hno]
      · rw [dbGet_cons_ne hw, dbGet_cons_ne hw, ih]

/-- A key of `dbPut db a b` is `a` or a key of `db`. -/
theorem mem_keys_dbPut {k a b : String} :
    ∀ {db : KeyDB}, k ∈ (dbPut db a b).map Prod.fst → k = a ∨ k ∈ db.map Prod.fst := by
  intro db
  induction db with
  | nil =>
    intro hm
    simpa [dbPut] using hm
  | cons q t iht =>
    obtain ⟨kq, xq⟩ := q
    intro hm
    by_cases hq : kq = a
    · subst hq
      rw [dbPut_cons_eq] at hm
      simp only [List.map_cons, List.mem_cons] at hm
      rcases hm with h1 | h1
      · exact Or.inl h1
      · exact Or.inr (by simp [h1])
    · rw [dbPut_cons_ne hq] at hm
      simp only [List.map_cons, List.mem_cons] at hm
      rcases hm with h1 | h1
      · exact Or.inr (by simp [h1])
      · rcases iht h1 with h2 | h2
        · exact Or.inl h2
        · exact Or.inr (by simp [h2])

/-- Keys stay distinct under `put`. -/
theorem dbPut_nodup {db : KeyDB} (h : (db.map Prod.fst).Nodup) (u v : String) :
    ((dbPut db u v).map Prod.fst).Nodup := by
  induction db with
  | nil => simp [dbPut]
  | cons p rest ih =>
    obtain ⟨k, x⟩ := p
    simp only [List.map_cons, List.nodup_cons] at h
    by_cases hk : k = u
    · subst hk
      rw [dbPut_cons_eq]
      simp only [List.map_cons, List.nodup_cons]
      exact h
    · rw [dbPut_cons_ne hk]
      simp only [List.map_cons, List.nodup_cons]
      refine ⟨?_, ih h.2⟩
      intro hc
      rcases mem_keys_dbPut hc with h1 | hmem
      · exact hk h1
      · exact h.1 hmem

/-! ### PEM framing lemmas -/

theorem listStartsWith_append (pat rest : List Char) :
    listStartsWith (pat ++ rest) pat = true := by
  induction pat with
  | nil =>
    cases rest with
    | nil => rfl
    | cons a t => rfl
  | cons p pt ih => simp [listStartsWith, ih]

theorem replaceFirst_exact {pat : List Char} (rest rep : List Char) (h : pat ≠ []) :
    replaceFirst (pat ++ rest) pat rep = rep ++ rest := by
  cases pat with
  | nil => exact absurd rfl h
  | cons p pt =>
    have hsw : listStartsWith (p :: (pt ++ rest)) (p :: pt) = true := by
      simp only [listStartsWith, listStartsWith_append pt rest, Bool.and_true]
      simp
    show replaceFirst (p :: (pt ++ rest)) (p :: pt) rep = rep ++ rest
    unfold replaceFirst
    rw [hsw]
    simp only [if_true]
    congr 1
    show (p :: (pt ++ rest)).drop (pt.length + 1) = rest
    simp only [List.drop_succ_cons]
    exact List.drop_left pt rest

theorem replaceFirst_no_head {p : Char} {pt : List Char} {l : List Char} (m rep : List Char)
    (hl : ∀ c ∈ l, c ≠ p) :
    replaceFirst (l ++ m) (p :: pt) rep = l ++ replaceFirst m (p :: pt) rep := by
  induction l with
  | nil => rfl
  | cons c t ih =>
    have hc : c ≠ p := hl c (by simp)
    have hsw : listStartsWith (c :: (t ++ m)) (p :: pt) = false := by
      simp [listStartsWith, hc]
    have hstep : replaceFirst (c :: (t ++ m)) (p :: pt) rep =
        c :: replaceFirst (t ++ m) (p :: pt) rep := by
      conv_lhs => unfold replaceFirst
      rw [hsw]
      simp
    rw [List.cons_append, hstep, ih (fun x hx => hl x (by simp [hx])), List.cons_append]

/-- Characters of a `btoa` output are never `-` and never `\n`. -/
theorem mem_btoaChars_props {bs : Bytes} (hv : ValidBytes bs) {c : Char}
    (hc : c ∈ btoaChars bs) : c ≠ '-' ∧ c ≠ '\n' := by
  rcases mem_btoaChars hv hc with ⟨s, hs, rfl⟩ | rfl
  · refine ⟨(sextetToChar_props s hs).2.2.1, ?_⟩
    have hws := (sextetToChar_props s hs).2.2.2
    intro hcontra
    rw [hcontra] at hws
    exact absurd hws (by decide)
  · exact ⟨by decide, by decide⟩

theorem subtleImportSpki_spkiEncode (kid : Nat) :
    subtleImportSpki (spkiEncode kid) =
      some { material := .rsaPub kid, alg := .rsaOaep 4096 "SHA-256",
             extractable := true, usages := [.encrypt] } := by
  unfold subtleImportSpki spkiEncode
  have h : decodeNat (encNat kid) = some (kid, []) := by
    have h0 := decodeNat_encNat_append kid []
    rwa [List.append_nil] at h0
  show (match decodeNat (encNat kid) with
        | some (kid, []) =>
          some ({ material := KeyMaterial.rsaPub kid, alg := .rsaOaep 4096 "SHA-256",
                  extractable := true, usages := [.encrypt] } : CryptoKey)
        | _ => none) = _
  rw [h]

theorem subtleImportPkcs8_pkcs8Encode (kid : Nat) :
    subtleImportPkcs8 (pkcs8Encode kid) =
      some { material := .rsaPriv kid, alg := .rsaOaep 4096 "SHA-256",
             extractable := true, usages := [.decrypt] } := by
  unfold subtleImportPkcs8 pkcs8Encode
  have h : decodeNat (encNat kid) = some (kid, []) := by
    have h0 := decodeNat_encNat_append kid []
    rwa [List.append_nil] at h0
  show (match decodeNat (encNat kid) with
        | some (kid, []) =>
          some ({ material := KeyMaterial.rsaPriv kid, alg := .rsaOaep 4096 "SHA-256",
                  extractable := true, usages := [.decrypt] } : CryptoKey)
        | _ => none) = _
  rw [h]

theorem importPrivateKey_exportPrivateKey (kid : Nat) :
    importPrivateKey (arrayBufferToBase64 (pkcs8Encode kid)) =
      some { material := .rsaPriv kid, alg := .rsaOaep 4096 "SHA-256",
             extractable := true, usages := [.decrypt] } := by
  unfold importPrivateKey
  show (base64ToArrayBuffer (arrayBufferToBase64 (pkcs8Encode kid))).bind
    subtleImportPkcs8 = _
  rw [base64ToArrayBuffer_arrayBufferToBase64 (validBytes_pkcs8Encode kid)]
  show subtleImportPkcs8 (pkcs8Encode kid) = _
  exact subtleImportPkcs8_pkcs8Encode kid

theorem importPublicKey_pem (kid : Nat) :
    importPublicKey ("-----BEGIN PUBLIC KEY-----\n" ++
        arrayBufferToBase64 (spkiEncode kid) ++ "\n-----END PUBLIC KEY-----") =
      some { material := .rsaPub kid, alg := .rsaOaep 4096 "SHA-256",
             extractable := true, usages := [.encrypt] } := by
  have hvalid : ValidBytes (spkiEncode kid) := validBytes_spkiEncode kid
  have hb64chars : ∀ c ∈ btoaChars (spkiEncode kid), c ≠ '-' ∧ c ≠ '\n' :=
    fun c hc => mem_btoaChars_props hvalid hc
  have hdata : ("-----BEGIN PUBLIC KEY-----\n" ++
      arrayBufferToBase64 (spkiEncode kid) ++ "\n-----END PUBLIC KEY-----").data =
      "-----BEGIN PUBLIC KEY-----".data ++
        (('\n' :: btoaChars (spkiEncode kid)) ++
          ('\n' :: "-----END PUBLIC KEY-----".data)) := by
    rw [String.data_append, String.data_append]
    have hA : ("-----BEGIN PUBLIC KEY-----\n").data =
        "-----BEGIN PUBLIC KEY-----".data ++ ['\n'] := rfl
    have hB : ("\n-----END PUBLIC KEY-----").data =
        '\n' :: "-----END PUBLIC KEY-----".data := rfl
    have hC : (arrayBufferToBase64 (spkiEncode kid)).data = btoaChars (spkiEncode kid) := rfl
    rw [hA, hB, hC]
    simp
  unfold importPublicKey
  show (atobChars ((replaceFirst (replaceFirst ("-----BEGIN PUBLIC KEY-----\n" ++
      arrayBufferToBase64 (spkiEncode kid) ++ "\n-----END PUBLIC KEY-----").data
      "-----BEGIN PUBLIC KEY-----".data []) "-----END PUBLIC KEY-----".data
      []).filter (fun c => ¬ (c = '\n')))).bind subtleImportSpki = _
  rw [hdata]
  rw [replaceFirst_exact _ _ (by decide)]
  rw [List.nil_append]
  have hshape : ('\n' :: btoaChars (spkiEncode kid)) ++
      ('\n' :: "-----END PUBLIC KEY-----".data) =
      (('\n' :: btoaChars (spkiEncode kid)) ++ ['\n']) ++
        "-----END PUBLIC KEY-----".data := by
    simp
  rw [hshape]
  have hend : "-----END PUBLIC KEY-----".data =
      '-' :: "----END PUBLIC KEY-----".data := rfl
  have hnodash : ∀ c ∈ ('\n' :: btoaChars (spkiEncode kid)) ++ ['\n'], c ≠ '-' := by
    intro c hc
    rcases List.mem_append.mp hc with h | h
    · rcases List.mem_cons.mp h with rfl | h
      · decide
      · exact (hb64chars c h).1
    · simp only [List.mem_singleton] at h
      subst h
      decide
  rw [hend, replaceFirst_no_head _ _ hnodash, ← hend]
  have hself : replaceFirst "-----END PUBLIC KEY-----".data
      "-----END PUBLIC KEY-----".data [] = [] := by
    have h0 := @replaceFirst_exact "-----END PUBLIC KEY-----".data
      [] [] (by decide)
    rwa [List.append_nil, List.nil_append] at h0
  rw [hself, List.append_nil]
  have hfilter : (('\n' :: btoaChars (spkiEncode kid)) ++ ['\n']).filter
      (fun c => ¬ (c = '\n')) = btoaChars (spkiEncode kid) := by
    rw [List.filter_append, List.filter_cons]
    simp only [decide_not]
    have hn : ((('\n' : Char) = '\n') : Bool) = true := by decide
    simp only [List.filter_cons, List.filter_nil]
    have hkeep : (btoaChars (spkiEncode kid)).filter (fun c => !(c = '\n' : Bool)) =
        btoaChars (spkiEncode kid) := by
      rw [List.filter_eq_self]
      intro c hc
      simp [(hb64chars c hc).2]
    simp [hkeep]
  rw [hfilter]
  show (atobChars (btoaChars (spkiEncode kid))).bind subtleImportSpki = _
  rw [atobChars_btoaChars hvalid]
  show subtleImportSpki (spkiEncode kid) = _
  exact subtleImportSpki_spkiEncode kid

theorem validBytes_set {l : Bytes} {i v : Nat} (hl : ValidBytes l) (hv : v < 256) :
    ValidBytes (l.set i v) := by
  intro x hx
  rcases List.mem_or_eq_of_mem_set hx with h | rfl
  · exact hl x h
  · exact hv

theorem set_ne_of_getD {l : Bytes} {i v : Nat} (hi : i < l.length)
    (hv : v ≠ l.getD i 0) : l.set i v ≠ l := by
  intro hc
  apply hv
  have h2 : (l.set i v)[i]? = l[i]? := by rw [hc]
  rw [List.getElem?_set_self hi] at h2
  rw [List.getD_eq_getElem?_getD, ← h2]
  rfl

theorem arrayBufferToBase64_inj {b1 b2 : Bytes} (h1 : ValidBytes b1) (h2 : ValidBytes b2)
    (h : arrayBufferToBase64 b1 = arrayBufferToBase64 b2) : b1 = b2 := by
  have e1 := base64ToArrayBuffer_arrayBufferToBase64 h1
  rw [h, base64ToArrayBuffer_arrayBufferToBase64 h2] at e1
  exact ((Option.some.injEq _ _).mp e1).symm

theorem subtleRsaDecrypt_matching {priv : CryptoKey} {kid : Nat}
    (hm : priv.material = KeyMaterial.rsaPriv kid)
    (hu : KeyUsage.decrypt ∈ priv.usages) (seed : Nat) (p : Bytes) :
    subtleRsaDecrypt priv (rsaSeal kid seed p) = some p := by
  unfold subtleRsaDecrypt rsaSeal
  rw [hm]
  simp [hu, unsealBytes_sealBytes, List.append_assoc, decodeNat_encNat_append]

theorem subtleRsaDecrypt_unseal_none {priv : CryptoKey} {kid : Nat}
    (hm : priv.material = KeyMaterial.rsaPriv kid) {ct : Bytes}
    (h : unsealBytes ct = none) : subtleRsaDecrypt priv ct = none := by
  unfold subtleRsaDecrypt
  rw [hm]
  simp [h]

theorem subtleAesGcmDecrypt_unseal_none {key : CryptoKey} {kb : Bytes}
    (hm : key.material = KeyMaterial.aes kb) {iv ct : Bytes}
    (h : unsealBytes ct = none) : subtleAesGcmDecrypt key iv ct = none := by
  unfold subtleAesGcmDecrypt
  rw [hm]
  simp [h]

theorem subtleAesGcmDecrypt_wrong_iv {key : CryptoKey} {kb iv iv2 p : Bytes}
    (hm : key.material = KeyMaterial.aes kb) (hne : iv ≠ iv2) :
    subtleAesGcmDecrypt key iv2 (gcmSeal kb iv p) = none := by
  unfold subtleAesGcmDecrypt gcmSeal
  rw [hm]
  simp only [unsealBytes_sealBytes, List.append_assoc, decodeBytes_encBytes_append]
  have hcond : ¬ (kb = kb ∧ iv = iv2) := by
    intro hc
    exact hne hc.2
  by_cases hu : KeyUsage.decrypt ∈ key.usages
  · simp [hu, hne]
  · simp [hu]

theorem encryptMessage_eq {pub : CryptoKey} {kid : Nat}
    (hm : pub.material = KeyMaterial.rsaPub kid) (hu : KeyUsage.encrypt ∈ pub.usages)
    (message : String) (akb ivb : Bytes) (seed : Nat) :
    encryptMessage message pub akb ivb seed =
      some { ciphertext := arrayBufferToBase64 (gcmSeal akb ivb (textEncode message))
             iv := arrayBufferToBase64 ivb
             encryptedKey := arrayBufferToBase64 (rsaSeal kid seed akb) } := by
  unfold encryptMessage subtleGenerateAesKey subtleAesGcmEncrypt subtleExportRaw
    subtleRsaEncrypt
  simp [hm, hu]

/-- `encryptMessage` under a freshly generated public key, fully computed. -/
theorem encryptMessage_generated (kid : Nat) (message : String)
    (akb ivb : Bytes) (seed : Nat) :
    encryptMessage message (generateRSAKeyPair kid).publicKey akb ivb seed =
      some { ciphertext := arrayBufferToBase64 (gcmSeal akb ivb (textEncode message))
             iv := arrayBufferToBase64 ivb
             encryptedKey := arrayBufferToBase64 (rsaSeal kid seed akb) } :=
  encryptMessage_eq rfl (List.mem_cons_self _ _) message akb ivb seed

theorem subtleImportRawAes_of_len32 {akb : Bytes} (hlen : akb.length = 32) :
    subtleImportRawAes akb =
      some { material := .aes akb, alg := .aesGcm 256,
             extractable := false, usages := [.decrypt] } := by
  unfold subtleImportRawAes
  rw [if_pos (by omega)]

theorem decryptMessage_eq {priv : CryptoKey} {kid : Nat}
    (hm : priv.material = KeyMaterial.rsaPriv kid) (hu : KeyUsage.decrypt ∈ priv.usages)
    (message : String) (akb ivb : Bytes) (seed : Nat)
    (hlen : akb.length = 32) (hak : ValidBytes akb) (hiv : ValidBytes ivb) :
    decryptMessage (arrayBufferToBase64 (gcmSeal akb ivb (textEncode message)))
      (arrayBufferToBase64 ivb) (arrayBufferToBase64 (rsaSeal kid seed akb)) priv =
      some message := by
  have hct : ValidBytes (gcmSeal akb ivb (textEncode message)) :=
    validBytes_gcmSeal hak hiv (textEncode_valid message)
  unfold decryptMessage
  simp [base64ToArrayBuffer_arrayBufferToBase64 (validBytes_rsaSeal kid seed hak),
    base64ToArrayBuffer_arrayBufferToBase64 hiv,
    base64ToArrayBuffer_arrayBufferToBase64 hct,
    subtleRsaDecrypt_matching hm hu, subtleImportRawAes_of_len32 hlen,
    subtleAesGcmDecrypt_gcmSeal akb ivb (textEncode message)
      ({ material := .aes akb, alg := .aesGcm 256, extractable := false,
         usages := [.decrypt] } : CryptoKey) rfl (by simp),
    textDecode_textEncode]

theorem subtleImportSpki_inv {data : Bytes} {k : CryptoKey}
    (h : subtleImportSpki data = some k) :
    ∃ kid, k = { material := .rsaPub kid, alg := .rsaOaep 4096 "SHA-256",
                 extractable := true, usages := [.encrypt] } := by
  unfold subtleImportSpki at h
  repeat' split at h
  all_goals simp_all
  exact ⟨_, h.symm⟩

theorem subtleImportPkcs8_inv {data : Bytes} {k : CryptoKey}
    (h : subtleImportPkcs8 data = some k) :
    ∃ kid, k = { material := .rsaPriv kid, alg := .rsaOaep 4096 "SHA-256",
                 extractable := true, usages := [.decrypt] } := by
  unfold subtleImportPkcs8 at h
  repeat' split at h
  all_goals simp_all
  exact ⟨_, h.symm⟩

theorem runStores_get (ops : List (String × String)) (db : KeyDB) (u : String) :
    dbGet (ops.foldl (fun db op => storePrivateKey db op.1 op.2) db) u =
      match lastStore ops u with
      | some v => some v
      | none => dbGet db u := by
  induction ops generalizing db with
  | nil => rfl
  | cons op rest ih =>
    obtain ⟨k, v⟩ := op
    show dbGet (rest.foldl _ (storePrivateKey db k v)) u = _
    rw [ih]
    unfold storePrivateKey
    cases hl : lastStore rest u with
    | some w => simp [lastStore, hl]
    | none =>
      simp only [lastStore, hl]
      rw [dbGet_dbPut]
      by_cases hk : k = u
      · simp [hk]
      · have : ¬ (u = k) := fun hc => hk hc.symm
        simp [hk, this]

theorem lastStore_of_not_stored {ops : List (String × String)} {u : String}
    (h : ∀ op ∈ ops, op.1 ≠ u) : lastStore ops u = none := by
  induction ops with
  | nil => rfl
  | cons op rest ih =>
    obtain ⟨k, v⟩ := op
    have hk : k ≠ u := h (k, v) (by simp)
    simp only [lastStore, ih (fun o ho => h o (by simp [ho])), hk, if_false]

theorem runStores_nodup (ops : List (String × String)) :
    ∀ {db : KeyDB}, (db.map Prod.fst).Nodup →
      (((ops.foldl (fun db op => storePrivateKey db op.1 op.2) db)).map Prod.fst).Nodup := by
  induction ops with
  | nil => intro db h; exact h
  | cons op rest ih =>
    intro db h
    exact ih (dbPut_nodup h op.1 op.2)

/-! ### Claim theorems -/

/-- C10: For every byte sequence `b`, `base64ToArrayBuffer` applied to
`arrayBufferToBase64 b` returns a buffer containing exactly the bytes of
`b`: the two base64 helpers of the source invert each other. -/
theorem C10_base64_roundtrip (b : Bytes) (hv : ValidBytes b) :
    base64ToArrayBuffer (arrayBufferToBase64 b) = some b :=
  base64ToArrayBuffer_arrayBufferToBase64 hv

theorem C10_witness :
    ValidBytes [0, 255, 7, 64] ∧
    base64ToArrayBuffer (arrayBufferToBase64 [0, 255, 7, 64]) = some [0, 255, 7, 64] :=
  ⟨by decide, C10_base64_roundtrip [0, 255, 7, 64] (by decide)⟩

/-- C9: Every call to `generateRSAKeyPair` produces a key pair for the
RSA-OAEP scheme with a 4096-bit modulus and SHA-256 hash, and both handles
are extractable, so `exportPublicKey`/`exportPrivateKey` succeed on them. -/
theorem C9_keygen_profile (kid : Nat) :
    (generateRSAKeyPair kid).publicKey.alg = KeyAlg.rsaOaep 4096 "SHA-256" ∧
    (generateRSAKeyPair kid).privateKey.alg = KeyAlg.rsaOaep 4096 "SHA-256" ∧
    (generateRSAKeyPair kid).publicKey.extractable = true ∧
    (generateRSAKeyPair kid).privateKey.extractable = true ∧
    (exportPublicKey (generateRSAKeyPair kid).publicKey).isSome = true ∧
    (exportPrivateKey (generateRSAKeyPair kid).privateKey).isSome = true := by
  refine ⟨rfl, rfl, rfl, rfl, ?_, ?_⟩
  · simp [exportPublicKey, subtleExportSpki, generateRSAKeyPair, subtleGenerateRsaKeyPair]
  · simp [exportPrivateKey, subtleExportPkcs8, generateRSAKeyPair, subtleGenerateRsaKeyPair]

/-- C7: `retrievePrivateKey u` on the store produced by any sequence of
`storePrivateKey` calls returns exactly the material of the last store for
`u` (`none` when there was none, even if other ids were stored); the store
keeps at most one record per userId. -/
theorem C7_keystore_last_write_wins (ops : List (String × String)) (u : String) :
    retrievePrivateKey (runStores ops) u = lastStore ops u ∧
    ((∀ op ∈ ops, op.1 ≠ u) → retrievePrivateKey (runStores ops) u = none) ∧
    ((runStores ops).map Prod.fst).Nodup := by
  have hmain : retrievePrivateKey (runStores ops) u = lastStore ops u := by
    unfold retrievePrivateKey runStores
    rw [runStores_get]
    cases lastStore ops u <;> rfl
  refine ⟨hmain, ?_, ?_⟩
  · intro h
    rw [hmain, lastStore_of_not_stored h]
  · exact runStores_nodup ops (by simp)

theorem C7_witness :
    retrievePrivateKey (runStores [("u1", "deadbeef")]) "u1" =
        lastStore [("u1", "deadbeef")] "u1" ∧
    ((∀ op ∈ [("u1", "deadbeef")], op.1 ≠ "u1") →
      retrievePrivateKey (runStores [("u1", "deadbeef")]) "u1" = none) ∧
    ((runStores [("u1", "deadbeef")]).map Prod.fst).Nodup ∧
    retrievePrivateKey (runStores [("u1", "deadbeef")]) "u1" = some "deadbeef" ∧
    retrievePrivateKey (runStores [("u1", "deadbeef")]) "u2" = none := by
  refine ⟨(C7_keystore_last_write_wins [("u1", "deadbeef")] "u1").1,
    (C7_keystore_last_write_wins [("u1", "deadbeef")] "u1").2.1,
    (C7_keystore_last_write_wins [("u1", "deadbeef")] "u1").2.2, by decide, by decide⟩

/-- C6 counterexample: a record carrying no header/footer lines at all — the
bare base64 body of a valid SPKI key — is imported successfully instead of
being rejected, because `importPublicKey` only strips the markers and never
checks that they were present. -/
theorem C6_counterexample :
    importPublicKey "AgA=" =
      some { material := .rsaPub 0, alg := .rsaOaep 4096 "SHA-256",
             extractable := true, usages := [.encrypt] } := by
  decide

/-- The contents `importPublicKey` hands to `atob`: the input after removing
the first occurrence of each PEM marker and every newline (exactly the
`pemContents` computation of the source). -/
def pemStripped (pem : String) : List Char :=
  (replaceFirst (replaceFirst pem.data "-----BEGIN PUBLIC KEY-----".data [])
    "-----END PUBLIC KEY-----".data []).filter (fun c => ¬ (c = '\n'))

/-- C6 (amended): `importPublicKey` fails on every input whose content after
stripping the framing markers and newlines is not valid base64 of a valid
SPKI structure; absent or wrong header/footer lines by themselves are not
detected. -/
theorem C6_import_failure (pem : String)
    (h : ∀ b, atobChars (pemStripped pem) = some b → subtleImportSpki b = none) :
    importPublicKey pem = none := by
  have heq : importPublicKey pem = (atobChars (pemStripped pem)).bind subtleImportSpki := rfl
  rw [heq]
  cases ha : atobChars (pemStripped pem) with
  | none => rfl
  | some b => simpa using h b ha

theorem C6_witness :
    (∀ b, atobChars (pemStripped
        "-----BEGIN RSA PUBLIC KEY-----\nAgA=\n-----END RSA PUBLIC KEY-----") = some b →
      subtleImportSpki b = none) ∧
    importPublicKey
      "-----BEGIN RSA PUBLIC KEY-----\nAgA=\n-----END RSA PUBLIC KEY-----" = none := by
  have hnone : atobChars (pemStripped
      "-----BEGIN RSA PUBLIC KEY-----\nAgA=\n-----END RSA PUBLIC KEY-----") = none := by
    decide
  have h : ∀ b, atobChars (pemStripped
      "-----BEGIN RSA PUBLIC KEY-----\nAgA=\n-----END RSA PUBLIC KEY-----") = some b →
      subtleImportSpki b = none := by
    intro b hb
    rw [hnone] at hb
    exact absurd hb (by simp)
  exact ⟨h, C6_import_failure _ h⟩

/-- C8: A key handle returned by `importPublicKey` carries only the
`encrypt` usage and every decryption attempt with it is rejected; a handle
returned by `importPrivateKey` carries only the `decrypt` usage and every
encryption attempt with it is rejected. -/
theorem C8_import_usages :
    (∀ pem k, importPublicKey pem = some k →
      k.usages = [KeyUsage.encrypt] ∧ ∀ ct, subtleRsaDecrypt k ct = none) ∧
    (∀ s k, importPrivateKey s = some k →
      k.usages = [KeyUsage.decrypt] ∧ ∀ seed d, subtleRsaEncrypt k seed d = none) := by
  constructor
  · intro pem k h
    have heq : importPublicKey pem = (atobChars (pemStripped pem)).bind subtleImportSpki :=
      rfl
    rw [heq] at h
    obtain ⟨b, _, hib⟩ := Option.bind_eq_some.mp h
    obtain ⟨kid, rfl⟩ := subtleImportSpki_inv hib
    exact ⟨rfl, fun ct => rfl⟩
  · intro s k h
    unfold importPrivateKey at h
    obtain ⟨b, _, hib⟩ := Option.bind_eq_some.mp h
    obtain ⟨kid, rfl⟩ := subtleImportPkcs8_inv hib
    exact ⟨rfl, fun seed d => rfl⟩

theorem C8_witness :
    importPublicKey "AgA=" =
      some { material := .rsaPub 0, alg := .rsaOaep 4096 "SHA-256",
             extractable := true, usages := [.encrypt] } ∧
    importPrivateKey "AwA=" =
      some { material := .rsaPriv 0, alg := .rsaOaep 4096 "SHA-256",
             extractable := true, usages := [.decrypt] } ∧
    (({ material := .rsaPub 0, alg := .rsaOaep 4096 "SHA-256",
        extractable := true, usages := [.encrypt] } : CryptoKey).usages =
          [KeyUsage.encrypt] ∧
      ∀ ct, subtleRsaDecrypt
        { material := .rsaPub 0, alg := .rsaOaep 4096 "SHA-256",
          extractable := true, usages := [.encrypt] } ct = none) ∧
    (({ material := .rsaPriv 0, alg := .rsaOaep 4096 "SHA-256",
        extractable := true, usages := [.decrypt] } : CryptoKey).usages =
          [KeyUsage.decrypt] ∧
      ∀ seed d, subtleRsaEncrypt
        { material := .rsaPriv 0, alg := .rsaOaep 4096 "SHA-256",
          extractable := true, usages := [.decrypt] } seed d = none) := by
  refine ⟨by decide, by decide, ?_, ?_⟩
  · exact C8_import_usages.1 "AgA=" _ (by decide)
  · exact C8_import_usages.2 "AwA=" _ (by decide)

/-- C1: For every plaintext string P (including the empty string) and every
key pair produced by `generateRSAKeyPair`, `decryptMessage` applied to the
three fields of `encryptMessage P K.publicKey` together with `K.privateKey`
returns exactly P.  The hypotheses state the platform randomness contract:
the AES `generateKey` call yields 32 fresh bytes and `getRandomValues`
yields bytes. -/
theorem C1_encrypt_decrypt_roundtrip (P : String) (kid : Nat)
    (akb ivb : Bytes) (seed : Nat)
    (hlen : akb.length = 32) (hak : ValidBytes akb) (hiv : ValidBytes ivb) :
    ∃ env : Envelope,
      encryptMessage P (generateRSAKeyPair kid).publicKey akb ivb seed = some env ∧
      decryptMessage env.ciphertext env.iv env.encryptedKey
        (generateRSAKeyPair kid).privateKey = some P := by
  refine ⟨_, encryptMessage_generated kid P akb ivb seed, ?_⟩
  exact decryptMessage_eq rfl (List.mem_cons_self _ _) P akb ivb seed hlen hak hiv

theorem C1_witness :
    (List.replicate 32 7 : Bytes).length = 32 ∧
    ValidBytes (List.replicate 32 7) ∧
    ValidBytes [0, 1, 2, 3, 4, 5, 6, 7, 8, 9, 10, 11] ∧
    ∃ env : Envelope,
      encryptMessage "hello bob" (generateRSAKeyPair 0).publicKey
        (List.replicate 32 7) [0, 1, 2, 3, 4, 5, 6, 7, 8, 9, 10, 11] 5 = some env ∧
      decryptMessage env.ciphertext env.iv env.encryptedKey
        (generateRSAKeyPair 0).privateKey = some "hello bob" :=
  ⟨by decide, by decide, by decide,
    C1_encrypt_decrypt_roundtrip "hello bob" 0 (List.replicate 32 7)
      [0, 1, 2, 3, 4, 5, 6, 7, 8, 9, 10, 11] 5 (by decide) (by decide) (by decide)⟩

/-- C3: Exporting and re-importing the public key yields a key under which
encryption still produces envelopes decryptable with the original private
key; exporting and re-importing the private key yields a key that still
decrypts envelopes encrypted under the original public key. -/
theorem C3_export_import_roundtrip (P : String) (kid : Nat)
    (akb ivb : Bytes) (seed : Nat)
    (hlen : akb.length = 32) (hak : ValidBytes akb) (hiv : ValidBytes ivb) :
    (∃ pem pub2,
      exportPublicKey (generateRSAKeyPair kid).publicKey = some pem ∧
      importPublicKey pem = some pub2 ∧
      ∃ env : Envelope,
        encryptMessage P pub2 akb ivb seed = some env ∧
        decryptMessage env.ciphertext env.iv env.encryptedKey
          (generateRSAKeyPair kid).privateKey = some P) ∧
    (∃ s priv2,
      exportPrivateKey (generateRSAKeyPair kid).privateKey = some s ∧
      importPrivateKey s = some priv2 ∧
      ∃ env : Envelope,
        encryptMessage P (generateRSAKeyPair kid).publicKey akb ivb seed = some env ∧
        decryptMessage env.ciphertext env.iv env.encryptedKey priv2 = some P) := by
  constructor
  · refine ⟨"-----BEGIN PUBLIC KEY-----\n" ++ arrayBufferToBase64 (spkiEncode kid) ++
      "\n-----END PUBLIC KEY-----", _, ?_, importPublicKey_pem kid, ?_⟩
    · unfold exportPublicKey subtleExportSpki generateRSAKeyPair subtleGenerateRsaKeyPair
      rfl
    · refine ⟨_, encryptMessage_generated kid P akb ivb seed, ?_⟩
      exact decryptMessage_eq rfl (List.mem_cons_self _ _) P akb ivb seed hlen hak hiv
  · refine ⟨arrayBufferToBase64 (pkcs8Encode kid), _, ?_,
      importPrivateKey_exportPrivateKey kid, ?_⟩
    · unfold exportPrivateKey subtleExportPkcs8 generateRSAKeyPair subtleGenerateRsaKeyPair
      rfl
    · refine ⟨_, encryptMessage_generated kid P akb ivb seed, ?_⟩
      exact decryptMessage_eq rfl (List.mem_cons_self _ _) P akb ivb seed hlen hak hiv

theorem C3_witness :
    (List.replicate 32 9 : Bytes).length = 32 ∧
    ValidBytes (List.replicate 32 9) ∧
    ValidBytes (List.replicate 12 3) ∧
    ((∃ pem pub2,
      exportPublicKey (generateRSAKeyPair 1).publicKey = some pem ∧
      importPublicKey pem = some pub2 ∧
      ∃ env : Envelope,
        encryptMessage "hi" pub2 (List.replicate 32 9) (List.replicate 12 3) 4 = some env ∧
        decryptMessage env.ciphertext env.iv env.encryptedKey
          (generateRSAKeyPair 1).privateKey = some "hi") ∧
    (∃ s priv2,
      exportPrivateKey (generateRSAKeyPair 1).privateKey = some s ∧
      importPrivateKey s = some priv2 ∧
      ∃ env : Envelope,
        encryptMessage "hi" (generateRSAKeyPair 1).publicKey
          (List.replicate 32 9) (List.replicate 12 3) 4 = some env ∧
        decryptMessage env.ciphertext env.iv env.encryptedKey priv2 = some "hi")) :=
  ⟨by decide, by decide, by decide,
    C3_export_import_roundtrip "hi" 1 (List.replicate 32 9) (List.replicate 12 3) 4
      (by decide) (by decide) (by decide)⟩

/-- C4: Every `encryptMessage` call uses the fresh 32-byte symmetric key and
the fresh 12-byte nonce drawn for that call: the `iv` field base64-decodes
to exactly those 12 bytes, the `encryptedKey` field unwraps (under the
recipient's private key) to exactly that fresh key, and two calls whose
nonce draws differ produce different `iv` fields (nonce freshness, which
holds up to the probability of the 12-byte draws colliding). -/
theorem C4_iv_freshness (P : String) (kid : Nat)
    (akb ivb akb2 ivb2 : Bytes) (seed seed2 : Nat) (env env2 : Envelope)
    (h12 : ivb.length = 12) (hak : ValidBytes akb)
    (hiv : ValidBytes ivb) (hiv2 : ValidBytes ivb2)
    (henc : encryptMessage P (generateRSAKeyPair kid).publicKey akb ivb seed = some env)
    (henc2 : encryptMessage P (generateRSAKeyPair kid).publicKey akb2 ivb2 seed2 =
      some env2) :
    (base64ToArrayBuffer env.iv = some ivb ∧ ivb.length = 12) ∧
    (∃ w, base64ToArrayBuffer env.encryptedKey = some w ∧
      subtleRsaDecrypt (generateRSAKeyPair kid).privateKey w = some akb) ∧
    (ivb ≠ ivb2 → env.iv ≠ env2.iv) := by
  have h1 := encryptMessage_generated kid P akb ivb seed
  rw [henc] at h1
  have henv := (Option.some.injEq _ _).mp h1
  have h2 := encryptMessage_generated kid P akb2 ivb2 seed2
  rw [henc2] at h2
  have henv2 := (Option.some.injEq _ _).mp h2
  subst henv
  subst henv2
  refine ⟨⟨base64ToArrayBuffer_arrayBufferToBase64 hiv, h12⟩,
    ⟨rsaSeal kid seed akb,
      base64ToArrayBuffer_arrayBufferToBase64 (validBytes_rsaSeal kid seed hak),
      subtleRsaDecrypt_matching rfl (List.mem_cons_self _ _) seed akb⟩, ?_⟩
  intro hne hcontra
  exact hne (arrayBufferToBase64_inj hiv hiv2 hcontra)

theorem C4_witness :
    ((List.replicate 12 3 : Bytes).length = 12 ∧
      ValidBytes (List.replicate 32 7) ∧ ValidBytes (List.replicate 12 3) ∧
      ValidBytes (List.replicate 12 4)) ∧
    encryptMessage "m" (generateRSAKeyPair 0).publicKey (List.replicate 32 7)
        (List.replicate 12 3) 5 = some
          { ciphertext := arrayBufferToBase64 (gcmSeal (List.replicate 32 7)
              (List.replicate 12 3) (textEncode "m"))
            iv := arrayBufferToBase64 (List.replicate 12 3)
            encryptedKey := arrayBufferToBase64 (rsaSeal 0 5 (List.replicate 32 7)) } ∧
    encryptMessage "m" (generateRSAKeyPair 0).publicKey (List.replicate 32 8)
        (List.replicate 12 4) 6 = some
          { ciphertext := arrayBufferToBase64 (gcmSeal (List.replicate 32 8)
              (List.replicate 12 4) (textEncode "m"))
            iv := arrayBufferToBase64 (List.replicate 12 4)
            encryptedKey := arrayBufferToBase64 (rsaSeal 0 6 (List.replicate 32 8)) } ∧
    ((base64ToArrayBuffer (arrayBufferToBase64 (List.replicate 12 3)) =
        some (List.replicate 12 3) ∧ (List.replicate 12 3 : Bytes).length = 12) ∧
      (∃ w, base64ToArrayBuffer (arrayBufferToBase64 (rsaSeal 0 5 (List.replicate 32 7))) =
          some w ∧
        subtleRsaDecrypt (generateRSAKeyPair 0).privateKey w =
          some (List.replicate 32 7)) ∧
      ((List.replicate 12 3 : Bytes) ≠ List.replicate 12 4 →
        arrayBufferToBase64 (List.replicate 12 3) ≠
          arrayBufferToBase64 (List.replicate 12 4))) := by
  refine ⟨⟨by decide, by decide, by decide, by decide⟩,
    encryptMessage_generated 0 "m" _ _ 5,
    encryptMessage_generated 0 "m" _ _ 6, ?_⟩
  exact C4_iv_freshness "m" 0 (List.replicate 32 7) (List.replicate 12 3)
    (List.replicate 32 8) (List.replicate 12 4) 5 6 _ _ (by decide) (by decide)
    (by decide) (by decide)
    (encryptMessage_generated 0 "m" _ _ 5)
    (encryptMessage_generated 0 "m" _ _ 6)

/-- C5: The `encryptedKey` field of every envelope is exactly the RSA-OAEP
encryption of the raw symmetric key bytes under the recipient's public key;
the matching private key recovers the raw key, any successful recovery can
only happen with the matching private key material, and none of the three
envelope fields contains the raw key bytes themselves. -/
theorem C5_key_never_unwrapped (P : String) (kid : Nat)
    (akb ivb : Bytes) (seed : Nat) (env : Envelope)
    (hlen : akb.length = 32) (h12 : ivb.length = 12)
    (hak : ValidBytes akb) (hiv : ValidBytes ivb)
    (henc : encryptMessage P (generateRSAKeyPair kid).publicKey akb ivb seed = some env) :
    (∃ w, base64ToArrayBuffer env.encryptedKey = some w ∧
      subtleRsaEncrypt (generateRSAKeyPair kid).publicKey seed akb = some w ∧
      subtleRsaDecrypt (generateRSAKeyPair kid).privateKey w = some akb ∧
      (∀ key2 d, subtleRsaDecrypt key2 w = some d →
        key2.material = KeyMaterial.rsaPriv kid ∧ d = akb) ∧
      w ≠ akb) ∧
    (∀ b, base64ToArrayBuffer env.ciphertext = some b → b ≠ akb) ∧
    (∀ b, base64ToArrayBuffer env.iv = some b → b ≠ akb) := by
  have h1 := encryptMessage_generated kid P akb ivb seed
  rw [henc] at h1
  have henv := (Option.some.injEq _ _).mp h1
  subst henv
  have hwlen : (rsaSeal kid seed akb).length =
      3 * ((encNat kid).length + (encNat seed).length + akb.length) + 1 := by
    unfold rsaSeal
    rw [sealBytes_length]
    simp
    omega
  have henclen : ∀ n : Nat, (encNat n).length = n + 1 := by
    intro n
    simp [encNat]
  have hctlen : (gcmSeal akb ivb (textEncode P)).length =
      3 * ((encBytes akb).length + (encBytes ivb).length + (textEncode P).length) + 1 := by
    unfold gcmSeal
    rw [sealBytes_length]
    simp
    omega
  have hbytlen : ∀ b : Bytes, (encBytes b).length = 2 * b.length + 1 := by
    intro b
    simp [encBytes, encNat]
    omega
  refine ⟨⟨rsaSeal kid seed akb,
      base64ToArrayBuffer_arrayBufferToBase64 (validBytes_rsaSeal kid seed hak), ?_,
      subtleRsaDecrypt_matching rfl (List.mem_cons_self _ _) seed akb,
      fun key2 d h => subtleRsaDecrypt_rsaSeal_inv h, ?_⟩, ?_, ?_⟩
  · unfold subtleRsaEncrypt generateRSAKeyPair subtleGenerateRsaKeyPair
    simp
  · intro hc
    have := congrArg List.length hc
    rw [hwlen, henclen, henclen, hlen] at this
    omega
  · intro b hb
    rw [base64ToArrayBuffer_arrayBufferToBase64
      (validBytes_gcmSeal hak hiv (textEncode_valid P))] at hb
    have hbeq := (Option.some.injEq _ _).mp hb
    subst hbeq
    intro hc
    have := congrArg List.length hc
    rw [hctlen, hbytlen, hbytlen, hlen, h12] at this
    omega
  · intro b hb
    rw [base64ToArrayBuffer_arrayBufferToBase64 hiv] at hb
    have hbeq := (Option.some.injEq _ _).mp hb
    subst hbeq
    intro hc
    have := congrArg List.length hc
    rw [hlen, h12] at this
    omega

set_option maxRecDepth 4000 in
theorem C5_witness :
    ((List.replicate 32 7 : Bytes).length = 32 ∧
      (List.replicate 12 3 : Bytes).length = 12 ∧
      ValidBytes (List.replicate 32 7) ∧ ValidBytes (List.replicate 12 3)) ∧
    encryptMessage "m" (generateRSAKeyPair 0).publicKey (List.replicate 32 7)
        (List.replicate 12 3) 5 = some
          { ciphertext := arrayBufferToBase64 (gcmSeal (List.replicate 32 7)
              (List.replicate 12 3) (textEncode "m"))
            iv := arrayBufferToBase64 (List.replicate 12 3)
            encryptedKey := arrayBufferToBase64 (rsaSeal 0 5 (List.replicate 32 7)) } ∧
    ((∃ w, base64ToArrayBuffer (arrayBufferToBase64 (rsaSeal 0 5 (List.replicate 32 7))) =
        some w ∧
      subtleRsaEncrypt (generateRSAKeyPair 0).publicKey 5 (List.replicate 32 7) = some w ∧
      subtleRsaDecrypt (generateRSAKeyPair 0).privateKey w = some (List.replicate 32 7) ∧
      (∀ key2 d, subtleRsaDecrypt key2 w = some d →
        key2.material = KeyMaterial.rsaPriv 0 ∧ d = List.replicate 32 7) ∧
      w ≠ List.replicate 32 7) ∧
    (∀ b, base64ToArrayBuffer (arrayBufferToBase64 (gcmSeal (List.replicate 32 7)
        (List.replicate 12 3) (textEncode "m"))) = some b → b ≠ List.replicate 32 7) ∧
    (∀ b, base64ToArrayBuffer (arrayBufferToBase64 (List.replicate 12 3)) = some b →
      b ≠ List.replicate 32 7)) := by
  refine ⟨⟨by decide, by decide, by decide, by decide⟩,
    encryptMessage_generated 0 "m" _ _ 5, ?_⟩
  exact C5_key_never_unwrapped "m" 0 (List.replicate 32 7) (List.replicate 12 3) 5 _
    (by decide) (by decide) (by decide) (by decide)
    (encryptMessage_generated 0 "m" _ _ 5)

/-- C2: Decrypting an envelope with the private key of a different key pair
fails with no partial result, and so does decrypting after any single byte
of the (decoded) ciphertext, iv, or wrappedKey field has been mutated:
`decryptMessage` returns no plaintext in every such case. -/
theorem C2_wrong_key_and_tamper (P : String) (kid : Nat)
    (akb ivb : Bytes) (seed : Nat) (env : Envelope)
    (hlen : akb.length = 32) (hak : ValidBytes akb) (hiv : ValidBytes ivb)
    (henc : encryptMessage P (generateRSAKeyPair kid).publicKey akb ivb seed = some env) :
    (∀ kid2, kid2 ≠ kid →
      decryptMessage env.ciphertext env.iv env.encryptedKey
        (generateRSAKeyPair kid2).privateKey = none) ∧
    (∀ ctB i v, base64ToArrayBuffer env.ciphertext = some ctB →
      i < ctB.length → v < 256 → v ≠ ctB.getD i 0 →
      decryptMessage (arrayBufferToBase64 (ctB.set i v)) env.iv env.encryptedKey
        (generateRSAKeyPair kid).privateKey = none) ∧
    (∀ ivB i v, base64ToArrayBuffer env.iv = some ivB →
      i < ivB.length → v < 256 → v ≠ ivB.getD i 0 →
      decryptMessage env.ciphertext (arrayBufferToBase64 (ivB.set i v)) env.encryptedKey
        (generateRSAKeyPair kid).privateKey = none) ∧
    (∀ ekB i v, base64ToArrayBuffer env.encryptedKey = some ekB →
      i < ekB.length → v < 256 → v ≠ ekB.getD i 0 →
      decryptMessage env.ciphertext env.iv (arrayBufferToBase64 (ekB.set i v))
        (generateRSAKeyPair kid).privateKey = none) := by
  have h1 := encryptMessage_generated kid P akb ivb seed
  rw [henc] at h1
  have henv := (Option.some.injEq _ _).mp h1
  subst henv
  have hctV : ValidBytes (gcmSeal akb ivb (textEncode P)) :=
    validBytes_gcmSeal hak hiv (textEncode_valid P)
  have hwV : ValidBytes (rsaSeal kid seed akb) := validBytes_rsaSeal kid seed hak
  have hrsaok : subtleRsaDecrypt (generateRSAKeyPair kid).privateKey
      (rsaSeal kid seed akb) = some akb :=
    subtleRsaDecrypt_matching rfl (List.mem_cons_self _ _) seed akb
  refine ⟨?_, ?_, ?_, ?_⟩
  · intro kid2 hne
    have hrsa := @subtleRsaDecrypt_wrong_key kid kid2 seed hne akb
    unfold decryptMessage
    simp [base64ToArrayBuffer_arrayBufferToBase64 hwV, generateRSAKeyPair, hrsa]
  · intro ctB i v hdec hi hv256 hvne
    rw [base64ToArrayBuffer_arrayBufferToBase64 hctV] at hdec
    have hctb := (Option.some.injEq _ _).mp hdec
    subst hctb
    have hgb : gcmSeal akb ivb (textEncode P) =
        sealBytes (encBytes akb ++ encBytes ivb ++ textEncode P) := rfl
    have hset : unsealBytes ((gcmSeal akb ivb (textEncode P)).set i v) = none := by
      rw [hgb] at hi hvne ⊢
      exact unsealBytes_set_ne hi hvne
    have hgcm : subtleAesGcmDecrypt
        { material := .aes akb, alg := .aesGcm 256, extractable := false,
          usages := [.decrypt] } ivb ((gcmSeal akb ivb (textEncode P)).set i v) = none :=
      subtleAesGcmDecrypt_unseal_none rfl hset
    unfold decryptMessage
    simp [base64ToArrayBuffer_arrayBufferToBase64 hwV,
      base64ToArrayBuffer_arrayBufferToBase64 hiv,
      base64ToArrayBuffer_arrayBufferToBase64 (validBytes_set hctV hv256),
      hrsaok, subtleImportRawAes_of_len32 hlen, hgcm]
  · intro ivB i v hdec hi hv256 hvne
    rw [base64ToArrayBuffer_arrayBufferToBase64 hiv] at hdec
    have hivb := (Option.some.injEq _ _).mp hdec
    subst hivb
    have hne2 : ivb ≠ ivb.set i v := (set_ne_of_getD hi hvne).symm
    have hgcm : subtleAesGcmDecrypt
        { material := .aes akb, alg := .aesGcm 256, extractable := false,
          usages := [.decrypt] } (ivb.set i v) (gcmSeal akb ivb (textEncode P)) = none :=
      subtleAesGcmDecrypt_wrong_iv rfl hne2
    unfold decryptMessage
    simp [base64ToArrayBuffer_arrayBufferToBase64 hwV,
      base64ToArrayBuffer_arrayBufferToBase64 hctV,
      base64ToArrayBuffer_arrayBufferToBase64 (validBytes_set hiv hv256),
      hrsaok, subtleImportRawAes_of_len32 hlen, hgcm]
  · intro ekB i v hdec hi hv256 hvne
    rw [base64ToArrayBuffer_arrayBufferToBase64 hwV] at hdec
    have hekb := (Option.some.injEq _ _).mp hdec
    subst hekb
    have hrs : rsaSeal kid seed akb =
        sealBytes (encNat kid ++ encNat seed ++ akb) := rfl
    have hset : unsealBytes ((rsaSeal kid seed akb).set i v) = none := by
      rw [hrs] at hi hvne ⊢
      exact unsealBytes_set_ne hi hvne
    have hrsa : subtleRsaDecrypt (generateRSAKeyPair kid).privateKey
        ((rsaSeal kid seed akb).set i v) = none :=
      subtleRsaDecrypt_unseal_none rfl hset
    unfold decryptMessage
    simp [base64ToArrayBuffer_arrayBufferToBase64 (validBytes_set hwV hv256), hrsa]

set_option maxRecDepth 4000 in
theorem C2_witness :
    ((List.replicate 32 7 : Bytes).length = 32 ∧
      ValidBytes (List.replicate 32 7) ∧ ValidBytes (List.replicate 12 3)) ∧
    encryptMessage "hi" (generateRSAKeyPair 0).publicKey (List.replicate 32 7)
        (List.replicate 12 3) 5 = some
          { ciphertext := arrayBufferToBase64 (gcmSeal (List.replicate 32 7)
              (List.replicate 12 3) (textEncode "hi"))
            iv := arrayBufferToBase64 (List.replicate 12 3)
            encryptedKey := arrayBufferToBase64 (rsaSeal 0 5 (List.replicate 32 7)) } ∧
    ((∀ kid2, kid2 ≠ 0 →
      decryptMessage
        (arrayBufferToBase64 (gcmSeal (List.replicate 32 7) (List.replicate 12 3)
          (textEncode "hi")))
        (arrayBufferToBase64 (List.replicate 12 3))
        (arrayBufferToBase64 (rsaSeal 0 5 (List.replicate 32 7)))
        (generateRSAKeyPair kid2).privateKey = none) ∧
    (∀ ctB i v, base64ToArrayBuffer (arrayBufferToBase64 (gcmSeal (List.replicate 32 7)
        (List.replicate 12 3) (textEncode "hi"))) = some ctB →
      i < ctB.length → v < 256 → v ≠ ctB.getD i 0 →
      decryptMessage (arrayBufferToBase64 (ctB.set i v))
        (arrayBufferToBase64 (List.replicate 12 3))
        (arrayBufferToBase64 (rsaSeal 0 5 (List.replicate 32 7)))
        (generateRSAKeyPair 0).privateKey = none) ∧
    (∀ ivB i v, base64ToArrayBuffer (arrayBufferToBase64 (List.replicate 12 3)) =
        some ivB →
      i < ivB.length → v < 256 → v ≠ ivB.getD i 0 →
      decryptMessage
        (arrayBufferToBase64 (gcmSeal (List.replicate 32 7) (List.replicate 12 3)
          (textEncode "hi")))
        (arrayBufferToBase64 (ivB.set i v))
        (arrayBufferToBase64 (rsaSeal 0 5 (List.replicate 32 7)))
        (generateRSAKeyPair 0).privateKey = none) ∧
    (∀ ekB i v, base64ToArrayBuffer (arrayBufferToBase64 (rsaSeal 0 5
        (List.replicate 32 7))) = some ekB →
      i < ekB.length → v < 256 → v ≠ ekB.getD i 0 →
      decryptMessage
        (arrayBufferToBase64 (gcmSeal (List.replicate 32 7) (List.replicate 12 3)
          (textEncode "hi")))
        (arrayBufferToBase64 (List.replicate 12 3))
        (arrayBufferToBase64 (ekB.set i v))
        (generateRSAKeyPair 0).privateKey = none)) := by
  refine ⟨⟨by decide, by decide, by decide⟩,
    encryptMessage_generated 0 "hi" _ _ 5, ?_⟩
  exact C2_wrong_key_and_tamper "hi" 0 (List.replicate 32 7) (List.replicate 12 3) 5 _
    (by decide) (by decide) (by decide)
    (encryptMessage_generated 0 "hi" _ _ 5)
